import Mathlib

/-!
Verification of the flutter_tools version/changelog core.

This file shallowly embeds the algorithmic core of the repository:

* `src/bump_version.rs` — the version bumper (the closure inside `main`),
  the pubspec `version:` line locator (the `(?m)^version:\s*(.+)$` regex of
  the `regex` crate, including its multiline behaviour), and the tag-sync
  step `ensure_current_version_tag`.
* `src/gen_changelog.rs` — `sorted_version_tags`, `find_previous_tag`,
  `get_git_log` (first-parent walk with boundary/budget/merge handling),
  `call_claude`'s failure classification and the fallback composer in `main`.
* the parts of the `semver 1.0` crate the two scripts rely on:
  `Version::parse`, the `Ord` instances for `Version`, `Prerelease` and
  `BuildMetadata`, and `Display` for `Version`.

Machine integers (`u64`) are modelled as `Nat` with the explicit `2^64`
bound where the Rust code can fail on overflow (numeric parsing), and
with the explicit wrap `% 2^64` where the Rust code performs `u64`
arithmetic (the version increments; a debug build panics at the boundary
instead of wrapping — either way the mathematical successor is not
produced there).
The commit graph walk of gix (`ancestors().first_parent_only()`) is
modelled by passing the first-parent ancestor chain of `HEAD` as a list:
each element is the commit reached from `HEAD` by repeatedly taking the
first parent, which is exactly the sequence the gix iterator yields.
Fallible Rust paths become `Option`/`Except`.
-/

namespace FlutterTools

/-! ## Definitions -/

/-- Soundness bundle for a three-way comparator: antisymmetric swap and
transitivity of "not greater". Everything else we need is derived. -/
structure LawCmp {α : Type _} (cmp : α → α → Ordering) : Prop where
  swap : ∀ a b, cmp a b = (cmp b a).swap
  le_trans : ∀ {a b c}, cmp a b ≠ .gt → cmp b c ≠ .gt → cmp a c ≠ .gt

/-- Three-way comparison on `Nat`, the model of `Ord::cmp` on Rust's
unsigned integers and of `usize`/length comparisons. -/
def cmpNat (a b : Nat) : Ordering :=
  if a < b then .lt else if a = b then .eq else .gt

/-- Three-way comparison of chars by code point; agrees with Rust's
bytewise UTF-8 comparison on valid strings. -/
def cmpChar (a b : Char) : Ordering := cmpNat a.toNat b.toNat

/-- Lexicographic comparison of char lists: the model of `str::cmp`
(Rust byte-lexicographic order, shorter strict prefixes come first). -/
def cmpCharList : List Char → List Char → Ordering
  | [], [] => .eq
  | [], _ :: _ => .lt
  | _ :: _, [] => .gt
  | a :: as, b :: bs => (cmpChar a b).then (cmpCharList as bs)

/-- The model of `str::cmp`. -/
def cmpStr (a b : String) : Ordering := cmpCharList a.toList b.toList

/-- Char-list prefix test (first argument is the candidate front part). -/
def hasPre : List Char → List Char → Bool
  | [], _ => true
  | _ :: _, [] => false
  | a :: as, b :: bs => a == b && hasPre as bs

/-- Rust `str::starts_with`, modelled on char lists (kernel-reducible,
unlike `String.startsWith`). -/
def strStartsWith (s front : String) : Bool := hasPre front.toList s.toList

/-- `semver::Version`: numeric core plus the raw text of the
`Prerelease` and `BuildMetadata` wrappers (empty string = absent),
exactly as the crate stores them. -/
structure Version where
  major : Nat
  minor : Nat
  patch : Nat
  pre : String
  build : String
  deriving Repr, DecidableEq

/-- The part of the version to increment (`enum VersionPart`). -/
inductive VersionPart
  | major
  | minor
  | patch
  | build
  deriving Repr, DecidableEq

/-- Decimal digits of `n`, most significant first; the fuel argument
(always called with `n + 1`, which exceeds the digit count) keeps the
recursion structural so that terms reduce inside the kernel. -/
def natReprAux : Nat → Nat → List Char
  | 0, _ => []
  | fuel + 1, n =>
    if n < 10 then [Char.ofNat (48 + n)]
    else natReprAux fuel (n / 10) ++ [Char.ofNat (48 + n % 10)]

/-- Decimal rendering of a `Nat`, the model of formatting a `u64`
with `Display`/`to_string`. -/
def natRepr (n : Nat) : String :=
  String.mk (natReprAux (n + 1) n)

/-- Rust `u64::from_str` restricted to the digit strings that can occur
inside semver build metadata: nonempty, all ASCII digits, within the
`u64` range (overflow is a parse error, hence `none`). -/
def parseU64 (s : String) : Option Nat :=
  let cs := s.toList
  if cs = [] then none
  else if cs.all Char.isDigit then
    let v := cs.foldl (fun acc c => acc * 10 + (c.toNat - 48)) 0
    if v < 2 ^ 64 then some v else none
  else none

/-- The version bumper: the closure inside `main` of `src/bump_version.rs`
(lines 199–243), acting on an already-parsed current version. The `u64`
increments carry the explicit wrap `% 2^64`: at `u64::MAX` the Rust
`+ 1` wraps in an optimized build and panics in a debug build — in
neither case is the mathematical successor produced. -/
def bumpVersion (v : Version) (part : VersionPart) : Version :=
  -- current_build_num: 0 when the build is absent, `parse().unwrap_or(0)`
  -- otherwise.
  let current_build_num : Nat :=
    if v.build = "" then 0 else (parseU64 v.build).getD 0
  match part with
  | .major =>
    { v with major := (v.major + 1) % 2 ^ 64, minor := 0, patch := 0,
             pre := "", build := "1" }
  | .minor =>
    { v with minor := (v.minor + 1) % 2 ^ 64, patch := 0,
             pre := "", build := "1" }
  | .patch =>
    { v with patch := (v.patch + 1) % 2 ^ 64, pre := "", build := "1" }
  | .build =>
    { v with build := natRepr ((current_build_num + 1) % 2 ^ 64) }

/-- Rust `str::split(sep)` on a char list (`""` yields one empty piece). -/
def splitChars (sep : Char) : List Char → List (List Char)
  | [] => [[]]
  | c :: cs =>
    if c = sep then [] :: splitChars sep cs
    else
      match splitChars sep cs with
      | [] => [[c]]
      | l :: ls => (c :: l) :: ls

/-- Remove one trailing carriage return (`\r\n` handling of `lines()`). -/
def stripCR (l : List Char) : List Char :=
  if l.getLast? = some '\r' then l.dropLast else l

/-- Rust `str::lines` (also bstr's `lines()`): split on `'\n'`, drop a
final empty piece produced by a trailing newline, and strip the `'\r'` of
a `\r\n` terminator from every newline-terminated line. -/
def rustLines (s : String) : List String :=
  let parts := splitChars '\n' s.toList
  let core := if parts.getLast? = some [] then parts.dropLast else parts
  let hadFinalNL := parts.getLast? = some ([] : List Char)
  (core.enum.map (fun p =>
    if hadFinalNL ∨ p.1 + 1 < core.length then stripCR p.2 else p.2)).map
    String.mk

/-- `message.lines().next().unwrap_or(b"")` in `get_git_log`. -/
def firstLineOf (msg : String) : String := ((rustLines msg).head?).getD ""

/-- A commit as `get_git_log` sees it: full 40-hex id, parent ids in order
(first parent = mainline), raw message. -/
structure CommitC where
  id : String
  parents : List String
  message : String
  deriving Repr, DecidableEq

/-- `&info.id.to_string()[..7]` (ids are 40 hex chars). -/
def shortId (s : String) : String := String.mk (s.toList.take 7)

/-- `format!("{} {}", short_id, first_line)`. -/
def formatCommit (c : CommitC) : String :=
  shortId c.id ++ " " ++ firstLineOf c.message

/-- The loop of `get_git_log` (`src/gen_changelog.rs` lines 207–237):
walk the first-parent chain, stop before the boundary commit, stop when
the emitted lines reach `maxCommits`, skip commits whose first message
line starts with `"Merge "`, and append `"{short id} {first line}"`
otherwise. -/
def gitLogLines (stopAt : Option String) (maxCommits : Nat) :
    List CommitC → List String → List String
  | [], lines => lines
  | c :: rest, lines =>
    if stopAt = some c.id then lines
    else if maxCommits ≤ lines.length then lines
    else if strStartsWith (firstLineOf c.message) ("Merge ") then
      gitLogLines stopAt maxCommits rest lines
    else
      gitLogLines stopAt maxCommits rest (lines ++ [formatCommit c])

/-- `get_git_log`: run the walk, fail when no lines were produced, join
with newlines otherwise. -/
def get_git_log (chain : List CommitC) (stopAt : Option String)
    (maxCommits : Nat) : Except String String :=
  let lines := gitLogLines stopAt maxCommits chain []
  if lines = [] then .error ("No commits found for changelog.")
  else .ok (String.intercalate ("\n") lines)

/-- Rust `str::split('.')` on a string. -/
def splitOnDot (s : String) : List String :=
  (splitChars '.' s.toList).map String.mk

/-- `bytes().all(|b| b.is_ascii_digit())`. -/
def allAsciiDigits (s : String) : Bool := s.toList.all (fun c => c.isDigit)

/-- One prerelease identifier comparison (semver crate `Ord for
Prerelease`, loop body): numeric identifiers order below alphanumeric
ones; two numeric ones compare by length then lexically (no leading
zeros after parsing); otherwise plain string comparison. -/
def cmpPreIdent (a b : String) : Ordering :=
  match allAsciiDigits a, allAsciiDigits b with
  | true, true =>
    (cmpNat a.toList.length b.toList.length).then (cmpStr a b)
  | true, false => .lt
  | false, true => .gt
  | false, false => cmpStr a b

/-- `trim_start_matches('0')`. -/
def trimZeros (s : String) : List Char :=
  s.toList.dropWhile (fun c => c = '0')

/-- One build-metadata identifier comparison (semver crate `Ord for
BuildMetadata`, loop body): for two numeric identifiers, compare the
zero-trimmed magnitude (length, then lexically), then the raw length
(`0 < 00 < 1 < 01 < 001 < 2`). -/
def cmpBuildIdent (a b : String) : Ordering :=
  match allAsciiDigits a, allAsciiDigits b with
  | true, true =>
    ((cmpNat (trimZeros a).length (trimZeros b).length).then
      (cmpCharList (trimZeros a) (trimZeros b))).then
      (cmpNat a.toList.length b.toList.length)
  | true, false => .lt
  | false, true => .gt
  | false, false => cmpStr a b

/-- The identifier-sequence loop shared by the `Prerelease` and
`BuildMetadata` orders: lexicographic, a strict front part sorting
first. -/
def cmpIdentList (cmp : String → String → Ordering) :
    List String → List String → Ordering
  | [], [] => .eq
  | [], _ :: _ => .lt
  | _ :: _, [] => .gt
  | a :: as, b :: bs => (cmp a b).then (cmpIdentList cmp as bs)

/-- semver crate `Ord for Prerelease`: the empty prerelease sorts above
every nonempty one; otherwise compare the dot-separated identifiers. -/
def cmpPre (a b : String) : Ordering :=
  if a = "" then (if b = "" then .eq else .gt)
  else if b = "" then .lt
  else cmpIdentList cmpPreIdent (splitOnDot a) (splitOnDot b)

/-- semver crate `Ord for BuildMetadata` (note: no empty special case;
`""` splits into one empty identifier, which is "numeric" and minimal). -/
def cmpBuild (a b : String) : Ordering :=
  cmpIdentList cmpBuildIdent (splitOnDot a) (splitOnDot b)

/-- semver crate `Ord for Version`: major, minor, patch, prerelease, and
finally build metadata as a tie-breaker (the crate's total order, used by
`sort_by` in `sorted_version_tags`). -/
def versionCmp (a b : Version) : Ordering :=
  (cmpNat a.major b.major).then ((cmpNat a.minor b.minor).then
    ((cmpNat a.patch b.patch).then ((cmpPre a.pre b.pre).then
      (cmpBuild a.build b.build))))

/-- Semver *precedence* (SemVer item 11): like `versionCmp` but with
build metadata ignored. -/
def precCmp (a b : Version) : Ordering :=
  (cmpNat a.major b.major).then ((cmpNat a.minor b.minor).then
    ((cmpNat a.patch b.patch).then (cmpPre a.pre b.pre)))

/-- The chars semver allows inside prerelease/build identifiers:
ASCII alphanumeric or hyphen. -/
def isIdentChar (c : Char) : Bool := c.isAlphanum || c == '-'

/-- Parse a numeric semver component (major/minor/patch): nonempty digit
run, no leading zero (except `"0"` itself), value within `u64` (overflow
is a parse error). Returns the value and the remaining input. -/
def parseNumComponent (cs : List Char) : Option (Nat × List Char) :=
  let ds := cs.takeWhile (fun c => c.isDigit)
  if ds = [] then none
  else if 1 < ds.length ∧ ds.head? = some '0' then none
  else
    let v := ds.foldl (fun acc c => acc * 10 + (c.toNat - 48)) 0
    if v < 2 ^ 64 then some (v, cs.drop ds.length) else none

/-- Is `id` a valid prerelease/build identifier under `numRule`
(prerelease: an all-digit identifier must not have a redundant leading
zero)? Nonemptiness is checked by the caller's loop. -/
def validIdent (numRule : Bool) (id : List Char) : Bool :=
  !(numRule && id.all (fun c => c.isDigit) &&
    decide (1 < id.length) && id.head? == some '0')

/-- The dot-separated identifier-sequence parser of the semver crate
(`prerelease`/`build_metadata`): `cur` is the identifier being read.
Stops at the first char that is neither an identifier char nor `'.'`,
returning the consumed text and the rest. -/
def identsLoop (numRule : Bool) : List Char → List Char →
    Option (List Char × List Char)
  | [], cur =>
    if cur = [] then none
    else if validIdent numRule cur then some (cur, []) else none
  | c :: rest, cur =>
    if isIdentChar c then identsLoop numRule rest (cur ++ [c])
    else if c = '.' then
      if cur = [] then none
      else if validIdent numRule cur then
        match identsLoop numRule rest [] with
        | none => none
        | some (more, r) => some (cur ++ '.' :: more, r)
      else none
    else
      if cur = [] then none
      else if validIdent numRule cur then some (cur, c :: rest) else none

/-- `semver::Version::parse`:
`MAJOR.MINOR.PATCH[-PRERELEASE][+BUILD]`, the whole string consumed.
(Separator chars are tested with `if` rather than literal patterns so
hypotheses about parses reduce step by step.) -/
def Version.parse (s : String) : Option Version :=
  match parseNumComponent s.toList with
  | Option.none => Option.none
  | some (maj, r1) =>
  match r1 with
  | [] => Option.none
  | c1 :: r2 =>
  if c1 = '.' then
    match parseNumComponent r2 with
    | Option.none => Option.none
    | some (mino, r3) =>
    match r3 with
    | [] => Option.none
    | c2 :: r4 =>
    if c2 = '.' then
      match parseNumComponent r4 with
      | Option.none => Option.none
      | some (pat, r5) =>
      match r5 with
      | [] => some ⟨maj, mino, pat, "", ""⟩
      | c3 :: r6 =>
      if c3 = '-' then
        match identsLoop true r6 [] with
        | Option.none => Option.none
        | some (pre, r7) =>
        match r7 with
        | [] => some ⟨maj, mino, pat, String.mk pre, ""⟩
        | c4 :: r8 =>
        if c4 = '+' then
          match identsLoop false r8 [] with
          | Option.none => Option.none
          | some (bld, r9) =>
            if r9 = [] then
              some ⟨maj, mino, pat, String.mk pre, String.mk bld⟩
            else Option.none
        else Option.none
      else if c3 = '+' then
        match identsLoop false r6 [] with
        | Option.none => Option.none
        | some (bld, r7) =>
          if r7 = [] then some ⟨maj, mino, pat, "", String.mk bld⟩
          else Option.none
      else Option.none
    else Option.none
  else Option.none

/-- `name.strip_prefix('v').unwrap_or(&name)`. -/
def stripLeadingV (name : String) : String :=
  match name.toList with
  | 'v' :: rest => String.mk rest
  | _ => name

/-- `sorted_version_tags` (`src/gen_changelog.rs` lines 136–148) on the
repository's tag-name list: keep the names whose text (after stripping an
optional leading `v`) parses as semver, decorate with the parsed version,
and stable-sort descending with `b.0.cmp(&a.0)` (Rust `sort_by` and
`List.mergeSort` are both stable, so they agree on lawful comparators). -/
def sorted_version_tags (tags : List String) : List (Version × String) :=
  let decorated := tags.filterMap (fun name =>
    (Version.parse (stripLeadingV name)).map (fun v => (v, name)))
  decorated.mergeSort (fun a b => versionCmp b.1 a.1 != .gt)

/-- `find_previous_tag` (`src/gen_changelog.rs` lines 176–182): the first
tag name in descending order that differs from `current_tag`. -/
def find_previous_tag (tags : List String) (current_tag : String) :
    Option String :=
  ((sorted_version_tags tags).map (fun p => p.2)).find?
    (fun name => name != current_tag)

/-- The chars matched by the regex class `\s` and trimmed by `str::trim`
(ASCII part; exotic Unicode whitespace is not modelled — no claim
depends on it). -/
def rsSpace (c : Char) : Bool :=
  c == ' ' || c == '\t' || c == '\n' || c == '\r' ||
  c == '\x0B' || c == '\x0C'

/-- Rust `str::trim`. -/
def rustTrim (s : String) : String :=
  String.mk (((s.toList.dropWhile rsSpace).reverse.dropWhile rsSpace).reverse)

/-- Can the `(.+)$` part of the version regex start `k` chars into
`tail`? It needs at least one char there that is not a newline. -/
def capOk (tail : List Char) (k : Nat) : Bool :=
  match tail.drop k with
  | [] => false
  | c :: _ => c != '\n'

/-- Greedy `\s*` backtracking of the `regex` crate: the largest prefix
length `k ≤ k0` of whitespace such that `(.+)$` can match at `k`. -/
def findCapStart (tail : List Char) : Nat → Option Nat
  | 0 => if capOk tail 0 then some 0 else none
  | k + 1 => if capOk tail (k + 1) then some (k + 1) else findCapStart tail k

/-- Matching `\s*(.+)$` (multiline, `.` excludes `'\n'`, `$` at a line
end) against `tail`, the text following `version:`. Returns the number of
consumed chars and the capture. Note that `\s` matches `'\n'`, so the
whitespace run may cross line boundaries, exactly as in the `regex`
crate. -/
def matchAfterColon (tail : List Char) : Option (Nat × List Char) :=
  let k0 := (tail.takeWhile rsSpace).length
  match findCapStart tail k0 with
  | none => none
  | some k =>
    let cap := (tail.drop k).takeWhile (fun c => c != '\n')
    some (k + cap.length, cap)

/-- Left-to-right scan for the leftmost match of
`(?m)^version:\s*(.+)$`: `^` only matches at a line start, so a match can
only begin where `atLineStart` holds and the text continues with
`version:`. Result: (match start, match end, capture). -/
def scanVersionLine : List Char → Bool → Nat → Option (Nat × Nat × List Char)
  | [], _, _ => none
  | c :: rest, atLineStart, pos =>
    if atLineStart && hasPre ("version:".toList) (c :: rest) then
      match matchAfterColon ((c :: rest).drop 8) with
      | some (m, cap) => some (pos, pos + 8 + m, cap)
      | none => scanVersionLine rest (c == '\n') (pos + 1)
    else scanVersionLine rest (c == '\n') (pos + 1)

/-- The first match of `(?m)^version:\s*(.+)$` in `s`
(`version_line_regex` in `src/bump_version.rs`). -/
def findVersionMatch (s : String) : Option (Nat × Nat × String) :=
  (scanVersionLine s.toList true 0).map (fun r => (r.1, r.2.1, String.mk r.2.2))

/-- `read_pubspec_version` (`src/bump_version.rs` lines 92–109). The Rust
first attempts a `serde_yaml` parse and falls back to the regex capture;
for the plain `version:`-line manifests modelled here the two agree, and
the regex fallback is the embedded semantics: first match of the version
regex, trimmed, `None` when empty or absent. -/
def read_pubspec_version (content : String) : Option String :=
  match findVersionMatch content with
  | none => none
  | some (_, _, cap) =>
    let v := rustTrim cap
    if v = "" then none else some v

/-- The local repository state the tag-sync step touches: the tag
namespace and the commit `HEAD` resolves to (`none` = unborn). -/
structure RepoSt where
  tags : List String
  head : Option String
  deriving Repr, DecidableEq

/-- `enum TagPrefix { V, None }` of `src/bump_version.rs`. -/
inductive TagPfx
  | v
  | none
  deriving Repr, DecidableEq

/-- How one run of `ensure_current_version_tag` ends (each constructor is
one `return Ok(())`/creation path of the Rust function). -/
inductive TagSyncOutcome
  | skippedNotARepo
  | skippedNoVersion
  | skippedInvalidVersion
  | skippedUnbornHead
  | alreadyTagged
  | created (tag : String)
  deriving Repr, DecidableEq

/-- `tag_exists`: `repo.try_find_reference("refs/tags/{tag}")?.is_some()`. -/
def tag_exists (r : RepoSt) (tag : String) : Bool := decide (tag ∈ r.tags)

/-- The tag core string `"{major}.{minor}.{patch}[-{prerelease}]"`
(build metadata ignored), `src/bump_version.rs` lines 146–149. -/
def tagBase (v : Version) : String :=
  let base := natRepr v.major ++ "." ++ natRepr v.minor ++ "." ++ natRepr v.patch
  if v.pre = "" then base else base ++ "-" ++ v.pre

/-- The caller's naming preference applied to the two candidates. -/
def preferredTag (pfx : TagPfx) (tagPlain tagV : String) : String :=
  match pfx with
  | .v => tagV
  | .none => tagPlain

/-- `ensure_current_version_tag` (`src/bump_version.rs` lines 111–182).
Inputs: the discovered repository (`none` = not in a repository), the
pubspec contents (`none` = unreadable, which the Rust propagates with
`?`), and the tag-prefix preference. Mirrors the Rust control flow:
discovery, read, version extraction, semver parse, both-form existence
check, `HEAD` resolution, and creation under `MustNotExist`. -/
def ensure_current_version_tag (repo : Option RepoSt)
    (content : Option String) (pfx : TagPfx) : Except String TagSyncOutcome :=
  match repo with
  | Option.none => .ok .skippedNotARepo
  | some r =>
    match content with
    | Option.none => .error ("Failed to read pubspec.yaml")
    | some c =>
      match read_pubspec_version c with
      | Option.none => .ok .skippedNoVersion
      | some version_str =>
        match Version.parse version_str with
        | Option.none => .ok .skippedInvalidVersion
        | some v =>
          let tag_plain := tagBase v
          let tag_v := "v" ++ tagBase v
          if tag_exists r tag_plain || tag_exists r tag_v then
            .ok .alreadyTagged
          else
            match r.head with
            | Option.none => .ok .skippedUnbornHead
            | some _ =>
              let preferred := preferredTag pfx tag_plain tag_v
              if tag_exists r preferred then
                .error ("Failed to create lightweight tag")
              else .ok (.created preferred)

/-- The state transformer of one tag-sync run: a created tag is added to
the tag namespace, every other outcome leaves the repository unchanged. -/
def applyTagSync (r : RepoSt) (content : Option String) (pfx : TagPfx) :
    RepoSt :=
  match ensure_current_version_tag (some r) content pfx with
  | .ok (.created t) => { r with tags := t :: r.tags }
  | _ => r

/-- `struct ApiResponse`: optional content blocks (each block an optional
text) and an optional error payload (its `message`). -/
structure ApiResponseM where
  content : Option (List (Option String))
  error : Option String
  deriving Repr, DecidableEq

/-- `resp.content.and_then(|blocks| blocks.into_iter().find_map(|b|
b.text)).unwrap_or_default()`. -/
def extractText (r : ApiResponseM) : String :=
  (r.content.bind (fun blocks => blocks.findSome? (fun b => b))).getD ""

/-- `call_claude` (`src/gen_changelog.rs` lines 245–281) after the HTTP
layer: the input is the transport/parse result (`Except.error` when the
request or the JSON decode failed, both of which the Rust propagates
with `?`); then an error payload or an empty text also fail. -/
def call_claude (resp : Except String ApiResponseM) : Except String String :=
  match resp with
  | .error e => .error e
  | .ok r =>
    match r.error with
    | some m => .error ("Claude API error: " ++ m)
    | Option.none =>
      let text := extractText r
      if text = "" then .error ("Claude API returned empty response")
      else .ok text

/-- `prev_tag.as_deref().unwrap_or("initial")`. -/
def prevTagStr (prev : Option String) : String := prev.getD ("initial")

/-- The deterministic fallback built in `main`
(`src/gen_changelog.rs` lines 345–356): a header naming the previous tag
and one `"- "` bullet per raw commit-log line. -/
def fallbackChangelog (prevTag gitLog : String) : String :=
  "## Changes since " ++ prevTag ++ "\n\n" ++
    String.intercalate ("\n") ((rustLines gitLog).map (fun l => "- " ++ l))

/-- The `match call_claude(..)` in `main`: the AI text verbatim on
success, the deterministic fallback on any failure. -/
def composeChangelog (result : Except String String)
    (prevTag gitLog : String) : String :=
  match result with
  | .ok text => text
  | .error _ => fallbackChangelog prevTag gitLog

/-- `Display for semver::Version`:
`major.minor.patch[-pre][+build]`, as produced by `v.to_string()`. -/
def versionToString (v : Version) : String :=
  natRepr v.major ++ "." ++ natRepr v.minor ++ "." ++ natRepr v.patch ++
    (if v.pre = "" then "" else "-" ++ v.pre) ++
    (if v.build = "" then "" else "+" ++ v.build)

/-- How the bump phase of `main` (`src/bump_version.rs` lines 194–250)
ends: no regex match (nothing written, success), a rewrite (new content
and new version string), or the `panic!` inside the replace closure when
the captured version fails to parse. -/
inductive BumpResult
  | noVersionLine
  | bumped (newContent newVersion : String)
  | panicked (msg : String)
  deriving Repr, DecidableEq

/-- The `version_line_regex.replace` call of `main`: locate the first
match of `(?m)^version:\s*(.+)$`, parse the trimmed capture, bump, and
splice `"version: {new}"` over the matched span (`replace` rewrites only
the first match). -/
def bumpManifest (content : String) (part : VersionPart) : BumpResult :=
  match findVersionMatch content with
  | Option.none => .noVersionLine
  | some (s, e, cap) =>
    match Version.parse (rustTrim cap) with
    | Option.none => .panicked ("Invalid semver format in pubspec.yaml")
    | some v =>
      let nvs := versionToString (bumpVersion v part)
      let cs := content.toList
      .bumped
        (String.mk (cs.take s ++ ("version: ").toList ++ nvs.toList ++
          cs.drop e)) nvs

/-- `main` of `src/bump_version.rs`: tag-sync first (its error aborts),
then read the manifest, then the regex bump. `Ok none` models "No version
line found" with nothing written; `Ok (some (c, v))` models a successful
write of content `c`. -/
def mainBump (repo : Option RepoSt) (content : Option String) (pfx : TagPfx)
    (part : VersionPart) : Except String (Option (String × String)) :=
  match ensure_current_version_tag repo content pfx with
  | .error e => .error e
  | .ok _ =>
    match content with
    | Option.none => .error ("Failed to read pubspec.yaml")
    | some c =>
      match bumpManifest c part with
      | .noVersionLine => .ok Option.none
      | .bumped nc nv => .ok (some (nc, nv))
      | .panicked m => .error m

/-! ## Theorems -/

theorem Ordering.then_assoc (a b c : Ordering) :
    (a.then b).then c = a.then (b.then c) := by
  cases a <;> rfl

theorem Ordering.swap_then (a b : Ordering) :
    (a.then b).swap = a.swap.then b.swap := by
  cases a <;> rfl

namespace LawCmp

variable {α : Type _} {cmp : α → α → Ordering}

theorem lt_iff_swap_gt (h : LawCmp cmp) (a b : α) :
    cmp a b = .lt ↔ cmp b a = .gt := by
  rw [h.swap a b]
  cases cmp b a <;> simp [Ordering.swap]

theorem eq_iff_swap_eq (h : LawCmp cmp) (a b : α) :
    cmp a b = .eq ↔ cmp b a = .eq := by
  rw [h.swap a b]
  cases cmp b a <;> simp [Ordering.swap]

theorem ne_gt_of_lt (_ : LawCmp cmp) {a b : α} (hab : cmp a b = .lt) :
    cmp a b ≠ .gt := by
  simp [hab]

theorem ne_gt_of_eq (_ : LawCmp cmp) {a b : α} (hab : cmp a b = .eq) :
    cmp a b ≠ .gt := by
  simp [hab]

theorem lt_trans' (h : LawCmp cmp) {a b c : α} (hab : cmp a b = .lt)
    (hbc : cmp b c ≠ .gt) :
    cmp a c = .lt := by
  by_contra hac
  have hca : cmp c a ≠ .gt := by
    intro hg
    exact hac ((h.lt_iff_swap_gt a c).2 hg)
  have hcb : cmp c b ≠ .gt := h.le_trans hca (h.ne_gt_of_lt hab)
  have hbc_ne_lt : cmp b c ≠ .lt := fun hl => hcb ((h.lt_iff_swap_gt b c).1 hl)
  have hbc_eq : cmp b c = .eq := by
    cases hx : cmp b c
    · exact absurd hx hbc_ne_lt
    · rfl
    · exact absurd hx hbc
  have hba : cmp b a ≠ .gt := h.le_trans (h.ne_gt_of_eq hbc_eq) hca
  exact hba ((h.lt_iff_swap_gt a b).1 hab)

theorem eq_trans' (h : LawCmp cmp) {a b c : α} (hab : cmp a b = .eq)
    (hbc : cmp b c = .eq) :
    cmp a c = .eq := by
  have h1 : cmp a c ≠ .gt := h.le_trans (h.ne_gt_of_eq hab) (h.ne_gt_of_eq hbc)
  have h2 : cmp c a ≠ .gt :=
    h.le_trans (h.ne_gt_of_eq ((h.eq_iff_swap_eq b c).1 hbc))
      (h.ne_gt_of_eq ((h.eq_iff_swap_eq a b).1 hab))
  have h3 : cmp a c ≠ .lt := fun hl => h2 ((h.lt_iff_swap_gt a c).1 hl)
  cases hx : cmp a c
  · exact absurd hx h3
  · rfl
  · exact absurd hx h1

theorem lt_of_eq_of_lt (h : LawCmp cmp) {a b c : α} (hab : cmp a b = .eq)
    (hbc : cmp b c = .lt) :
    cmp a c = .lt := by
  have h1 : cmp a c ≠ .gt := h.le_trans (h.ne_gt_of_eq hab) (h.ne_gt_of_lt hbc)
  have h2 : cmp a c ≠ .eq := by
    intro he
    have : cmp b c = .eq :=
      h.eq_trans' ((h.eq_iff_swap_eq a b).1 hab) he
    simp [hbc] at this
  cases hx : cmp a c
  · rfl
  · exact absurd hx h2
  · exact absurd hx h1

theorem lt_of_lt_of_eq (h : LawCmp cmp) {a b c : α} (hab : cmp a b = .lt)
    (hbc : cmp b c = .eq) :
    cmp a c = .lt :=
  h.lt_trans' hab (h.ne_gt_of_eq hbc)

theorem total (h : LawCmp cmp) (a b : α) : cmp a b ≠ .gt ∨ cmp b a ≠ .gt := by
  cases hx : cmp a b
  · left; simp
  · left; simp
  · right
    intro hg
    have h1 : cmp b a = .lt := (h.lt_iff_swap_gt b a).2 hx
    simp [h1] at hg

/-- Lexicographic composition of two sound comparators is sound. -/
theorem thenCmp (h : LawCmp cmp) {g : α → α → Ordering} (hg : LawCmp g) :
    LawCmp (fun a b => (cmp a b).then (g a b)) := by
  constructor
  · intro a b
    rw [h.swap a b, hg.swap a b, Ordering.swap_then]
  · intro a b c hab hbc
    simp only at hab hbc ⊢
    cases hf1 : cmp a b with
    | gt => simp [hf1, Ordering.then] at hab
    | lt =>
      cases hf2 : cmp b c with
      | gt => simp [hf2, Ordering.then] at hbc
      | lt => simp [h.lt_trans' hf1 (h.ne_gt_of_lt hf2), Ordering.then]
      | eq => simp [h.lt_of_lt_of_eq hf1 hf2, Ordering.then]
    | eq =>
      cases hf2 : cmp b c with
      | gt => simp [hf2, Ordering.then] at hbc
      | lt => simp [h.lt_of_eq_of_lt hf1 hf2, Ordering.then]
      | eq =>
        have hac : cmp a c = .eq := h.eq_trans' hf1 hf2
        simp [hf1, Ordering.then] at hab
        simp [hf2, Ordering.then] at hbc
        simp [hac, Ordering.then]
        exact hg.le_trans hab hbc

/-- Pulling a sound comparator back along a function keeps it sound. -/
theorem comap (h : LawCmp cmp) {β : Type _} (f : β → α) :
    LawCmp (fun a b => cmp (f a) (f b)) := by
  constructor
  · intro a b; exact h.swap (f a) (f b)
  · intro a b c; exact h.le_trans

end LawCmp

theorem cmpNat_lawful : LawCmp cmpNat := by
  constructor
  · intro a b
    unfold cmpNat
    rcases Nat.lt_trichotomy a b with h | h | h
    · simp [h, Nat.ne_of_gt h, Nat.lt_asymm h, Ordering.swap, Nat.ne_of_lt h]
    · simp [h, Ordering.swap]
    · simp [h, Nat.ne_of_gt h, Nat.lt_asymm h, Ordering.swap, Nat.ne_of_lt h]
  · intro a b c hab hbc
    unfold cmpNat at *
    split_ifs at *
    all_goals first | omega | simp_all

theorem cmpNat_eq_iff (a b : Nat) : cmpNat a b = .eq ↔ a = b := by
  unfold cmpNat
  split_ifs with h1 h2
  all_goals simp_all
  all_goals omega

theorem cmpChar_lawful : LawCmp cmpChar := cmpNat_lawful.comap Char.toNat

theorem cmpCharList_lawful : LawCmp cmpCharList := by
  constructor
  · intro a b
    induction a generalizing b with
    | nil => cases b <;> rfl
    | cons x xs ih =>
      cases b with
      | nil => rfl
      | cons y ys =>
        simp only [cmpCharList, Ordering.swap_then, ih ys,
          cmpChar_lawful.swap x y]
  · intro a b c hab hbc
    induction a generalizing b c with
    | nil =>
      cases b with
      | nil => cases c <;> simpa using hbc
      | cons y ys => cases c <;> simp [cmpCharList]
    | cons x xs ih =>
      cases b with
      | nil => simp [cmpCharList] at hab
      | cons y ys =>
        cases c with
        | nil => simp [cmpCharList] at hbc
        | cons z zs =>
          simp only [cmpCharList] at hab hbc ⊢
          cases h1 : cmpChar x y with
          | gt => simp [h1, Ordering.then] at hab
          | lt =>
            cases h2 : cmpChar y z with
            | gt => simp [h2, Ordering.then] at hbc
            | lt =>
              simp [cmpChar_lawful.lt_trans' h1 (cmpChar_lawful.ne_gt_of_lt h2),
                Ordering.then]
            | eq => simp [cmpChar_lawful.lt_of_lt_of_eq h1 h2, Ordering.then]
          | eq =>
            cases h2 : cmpChar y z with
            | gt => simp [h2, Ordering.then] at hbc
            | lt => simp [cmpChar_lawful.lt_of_eq_of_lt h1 h2, Ordering.then]
            | eq =>
              have h3 : cmpChar x z = .eq := cmpChar_lawful.eq_trans' h1 h2
              simp [h1, Ordering.then] at hab
              simp [h2, Ordering.then] at hbc
              simp [h3, Ordering.then]
              exact ih hab hbc

theorem cmpStr_lawful : LawCmp cmpStr := cmpCharList_lawful.comap String.toList

/-- A comparator that dispatches on the numeric/alphanumeric class of its
arguments (numeric below alphanumeric) is sound when its two branch
comparators are. -/
theorem classedCmp_lawful {num alpha cmp : String → String → Ordering}
    (hn : LawCmp num) (ha : LawCmp alpha)
    (hTT : ∀ a b, allAsciiDigits a = true → allAsciiDigits b = true →
      cmp a b = num a b)
    (hTF : ∀ a b, allAsciiDigits a = true → allAsciiDigits b = false →
      cmp a b = .lt)
    (hFT : ∀ a b, allAsciiDigits a = false → allAsciiDigits b = true →
      cmp a b = .gt)
    (hFF : ∀ a b, allAsciiDigits a = false → allAsciiDigits b = false →
      cmp a b = alpha a b) :
    LawCmp cmp := by
  constructor
  · intro a b
    cases hA : allAsciiDigits a
    · cases hB : allAsciiDigits b
      · rw [hFF a b hA hB, hFF b a hB hA]; exact ha.swap a b
      · rw [hFT a b hA hB, hTF b a hB hA]; rfl
    · cases hB : allAsciiDigits b
      · rw [hTF a b hA hB, hFT b a hB hA]; rfl
      · rw [hTT a b hA hB, hTT b a hB hA]; exact hn.swap a b
  · intro a b c hab hbc
    cases hA : allAsciiDigits a
    · cases hB : allAsciiDigits b
      · cases hC : allAsciiDigits c
        · rw [hFF a b hA hB] at hab
          rw [hFF b c hB hC] at hbc
          rw [hFF a c hA hC]
          exact ha.le_trans hab hbc
        · rw [hFT b c hB hC] at hbc
          exact absurd rfl hbc
      · rw [hFT a b hA hB] at hab
        exact absurd rfl hab
    · cases hB : allAsciiDigits b
      · cases hC : allAsciiDigits c
        · rw [hTF a c hA hC]; simp
        · rw [hFT b c hB hC] at hbc
          exact absurd rfl hbc
      · cases hC : allAsciiDigits c
        · rw [hTF a c hA hC]; simp
        · rw [hTT a b hA hB] at hab
          rw [hTT b c hB hC] at hbc
          rw [hTT a c hA hC]
          exact hn.le_trans hab hbc

theorem cmpPreIdent_lawful : LawCmp cmpPreIdent := by
  refine classedCmp_lawful
    ((cmpNat_lawful.comap (fun s : String => s.toList.length)).thenCmp
      cmpStr_lawful)
    cmpStr_lawful ?_ ?_ ?_ ?_ <;>
    intro a b hA hB <;> simp only [cmpPreIdent, hA, hB]

theorem cmpBuildIdent_lawful : LawCmp cmpBuildIdent := by
  refine classedCmp_lawful
    (((cmpNat_lawful.comap (fun s : String => (trimZeros s).length)).thenCmp
        (cmpCharList_lawful.comap trimZeros)).thenCmp
      (cmpNat_lawful.comap (fun s : String => s.toList.length)))
    cmpStr_lawful ?_ ?_ ?_ ?_ <;>
    intro a b hA hB <;> simp only [cmpBuildIdent, hA, hB]

theorem cmpIdentList_lawful {c : String → String → Ordering}
    (hc : LawCmp c) : LawCmp (cmpIdentList c) := by
  constructor
  · intro a b
    induction a generalizing b with
    | nil => cases b <;> rfl
    | cons x xs ih =>
      cases b with
      | nil => rfl
      | cons y ys =>
        simp only [cmpIdentList, Ordering.swap_then, ih ys, hc.swap x y]
  · intro a b c hab hbc
    induction a generalizing b c with
    | nil =>
      cases b with
      | nil => cases c <;> simpa using hbc
      | cons y ys => cases c <;> simp [cmpIdentList]
    | cons x xs ih =>
      cases b with
      | nil => simp [cmpIdentList] at hab
      | cons y ys =>
        cases c with
        | nil => simp [cmpIdentList] at hbc
        | cons z zs =>
          simp only [cmpIdentList] at hab hbc ⊢
          cases h1 : c x y with
          | gt => simp [h1, Ordering.then] at hab
          | lt =>
            cases h2 : c y z with
            | gt => simp [h2, Ordering.then] at hbc
            | lt => simp [hc.lt_trans' h1 (hc.ne_gt_of_lt h2), Ordering.then]
            | eq => simp [hc.lt_of_lt_of_eq h1 h2, Ordering.then]
          | eq =>
            cases h2 : c y z with
            | gt => simp [h2, Ordering.then] at hbc
            | lt => simp [hc.lt_of_eq_of_lt h1 h2, Ordering.then]
            | eq =>
              have h3 : c x z = .eq := hc.eq_trans' h1 h2
              simp [h1, Ordering.then] at hab
              simp [h2, Ordering.then] at hbc
              simp [h3, Ordering.then]
              exact ih hab hbc

theorem cmpPre_lawful : LawCmp cmpPre := by
  have hil := cmpIdentList_lawful cmpPreIdent_lawful
  constructor
  · intro a b
    unfold cmpPre
    by_cases hA : a = "" <;> by_cases hB : b = "" <;>
      simp only [hA, hB, if_true, if_false, ite_true, ite_false,
        if_pos, reduceIte]
    · rfl
    · rfl
    · rfl
    · exact (hil.comap splitOnDot).swap a b
  · intro a b c hab hbc
    unfold cmpPre at hab hbc ⊢
    by_cases hA : a = "" <;> by_cases hB : b = "" <;> by_cases hC : c = "" <;>
      simp only [hA, hB, hC, ite_true, ite_false, reduceIte] at hab hbc ⊢ <;>
      try simp at hab <;> try simp at hbc
    all_goals first
      | exact hil.le_trans hab hbc
      | exact absurd rfl hab
      | exact absurd rfl hbc
      | simp

theorem cmpBuild_lawful : LawCmp cmpBuild :=
  (cmpIdentList_lawful cmpBuildIdent_lawful).comap splitOnDot

theorem versionCmp_lawful : LawCmp versionCmp :=
  (cmpNat_lawful.comap Version.major).thenCmp
    ((cmpNat_lawful.comap Version.minor).thenCmp
      ((cmpNat_lawful.comap Version.patch).thenCmp
        ((cmpPre_lawful.comap Version.pre).thenCmp
          (cmpBuild_lawful.comap Version.build))))

theorem precCmp_lawful : LawCmp precCmp :=
  (cmpNat_lawful.comap Version.major).thenCmp
    ((cmpNat_lawful.comap Version.minor).thenCmp
      ((cmpNat_lawful.comap Version.patch).thenCmp
        (cmpPre_lawful.comap Version.pre)))

/-- The crate's total order refines semver precedence: build metadata is
only a final tie-breaker. -/
theorem versionCmp_split (a b : Version) :
    versionCmp a b = (precCmp a b).then (cmpBuild a.build b.build) := by
  unfold versionCmp precCmp
  simp [Ordering.then_assoc]

/-- Counterexample for C1 as stated: at the numeric build
`u64::MAX = 18446744073709551615` the Rust `current_build_num + 1`
overflows (wrapping to `0` in an optimized build, panicking in a debug
build), so the build is not set to the parsed value plus one — the
original claim's formula demands `natRepr (2^64) ≠ "0"` there. -/
theorem bumpVersion_overflow_counterexample :
    bumpVersion ⟨1, 2, 3, "", ("18446744073709551615")⟩ .build =
      ⟨1, 2, 3, "", ("0")⟩ ∧
    (if ("18446744073709551615") = ("" : String) then 0
      else (parseU64 ("18446744073709551615")).getD 0) + 1 = 2 ^ 64 ∧
    natRepr (2 ^ 64) ≠ ("0") := by
  refine ⟨by decide, by decide, by decide⟩

/-- **C1 (amended).** For every version whose incremented quantity stays
within `u64`: `bump(v, Major)` increments the major component and zeroes
minor and patch; `bump(v, Minor)` increments minor and zeroes patch;
`bump(v, Patch)` increments patch; in those three cases the prerelease is
cleared and the build reset to the string `"1"`; and `bump(v, Build)`
sets the build to (the current build parsed as a non-negative integer, or
`0` when absent or non-numeric) plus one, rendered in decimal, leaving
major, minor, patch and prerelease unchanged. At `u64::MAX` the Rust
increment overflows instead of producing the successor. -/
theorem bumpVersion_spec (v : Version) :
    (v.major + 1 < 2 ^ 64 →
      bumpVersion v .major =
        { major := v.major + 1, minor := 0, patch := 0,
          pre := "", build := "1" }) ∧
    (v.minor + 1 < 2 ^ 64 →
      bumpVersion v .minor =
        { major := v.major, minor := v.minor + 1, patch := 0,
          pre := "", build := "1" }) ∧
    (v.patch + 1 < 2 ^ 64 →
      bumpVersion v .patch =
        { major := v.major, minor := v.minor, patch := v.patch + 1,
          pre := "", build := "1" }) ∧
    ((if v.build = "" then 0 else (parseU64 v.build).getD 0) + 1 < 2 ^ 64 →
      bumpVersion v .build =
        { major := v.major, minor := v.minor, patch := v.patch,
          pre := v.pre,
          build := natRepr ((if v.build = "" then 0
            else (parseU64 v.build).getD 0) + 1) }) := by
  refine ⟨?_, ?_, ?_, ?_⟩
  · intro h
    simp only [bumpVersion]
    rw [Nat.mod_eq_of_lt h]
  · intro h
    simp only [bumpVersion]
    rw [Nat.mod_eq_of_lt h]
  · intro h
    simp only [bumpVersion]
    rw [Nat.mod_eq_of_lt h]
  · intro h
    simp only [bumpVersion]
    rw [Nat.mod_eq_of_lt h]

/-- Witness for the amended C1 at a concrete version, exercising the
major and build cases. -/
theorem bumpVersion_spec_witness :
    bumpVersion ⟨1, 2, 3, ("rc.1"), ("7")⟩ .major =
      ⟨2, 0, 0, "", ("1")⟩ ∧
    bumpVersion ⟨1, 2, 3, ("rc.1"), ("7")⟩ .build =
      ⟨1, 2, 3, ("rc.1"), ("8")⟩ := by
  have h := bumpVersion_spec ⟨1, 2, 3, ("rc.1"), ("7")⟩
  exact ⟨(h.1 (by decide)).trans (by decide),
    (h.2.2.2 (by decide)).trans (by decide)⟩

theorem takeWhile_ext {α : Type _} {p q : α → Bool} (h : ∀ a, p a = q a) :
    ∀ l : List α, l.takeWhile p = l.takeWhile q := by
  intro l
  induction l with
  | nil => rfl
  | cons a l ih => simp [List.takeWhile_cons, h a, ih]

/-- What the `get_git_log` loop computes: truncate the chain strictly
before the boundary, drop `"Merge "`-prefixed commits, cap at the
remaining budget, and format. -/
theorem gitLogLines_eq (stopAt : Option String) (maxCommits : Nat)
    (chain : List CommitC) (acc : List String) :
    gitLogLines stopAt maxCommits chain acc =
      acc ++ ((((chain.takeWhile (fun c => decide (stopAt ≠ some c.id))).filter
        (fun c => !strStartsWith (firstLineOf c.message) ("Merge "))).take
          (maxCommits - acc.length)).map formatCommit) := by
  induction chain generalizing acc with
  | nil => simp [gitLogLines]
  | cons c rest ih =>
    by_cases h1 : stopAt = some c.id
    · simp [gitLogLines, h1]
    · by_cases h2 : maxCommits ≤ acc.length
      · have h3 : maxCommits - acc.length = 0 := by omega
        simp [gitLogLines, h1, h2, h3]
      · by_cases h4 : strStartsWith (firstLineOf c.message) ("Merge ")
        · simp [gitLogLines, h1, h2, h4, ih]
        · have h5 : maxCommits - acc.length =
              (maxCommits - (acc.length + 1)) + 1 := by omega
          have hq : (decide (stopAt ≠ some c.id)) = true := by
            simp only [decide_eq_true_eq]
            exact h1
          have hm : (!strStartsWith (firstLineOf c.message) ("Merge ")) = true := by
            simp only [Bool.not_eq_true']
            cases hx : strStartsWith (firstLineOf c.message) ("Merge ")
            · rfl
            · exact absurd hx h4
          rw [gitLogLines, if_neg h1, if_neg h2, if_neg h4, ih]
          simp only [List.takeWhile_cons, List.filter_cons, hq, hm,
            List.length_append, List.length_singleton, ite_true]
          rw [h5, List.take_succ_cons, List.map_cons]
          simp

/-- **C2.** For every first-parent chain, boundary commit id and budget:
the extractor's output is exactly the boundary-truncated, merge-filtered,
budget-capped, formatted chain; hence it has at most `maxCommits` lines,
it never contains a line of the boundary commit (the walk stops before
emitting it), every emitted line comes from a non-`"Merge "` commit of the
chain, and skipped merge commits do not consume the budget (the cap is
applied after the merge filter). -/
theorem getGitLog_boundary_merge_budget (chain : List CommitC) (stop : String)
    (maxCommits : Nat) :
    gitLogLines (some stop) maxCommits chain [] =
      ((((chain.takeWhile (fun c => decide (c.id ≠ stop))).filter
        (fun c => !strStartsWith (firstLineOf c.message) ("Merge "))).take
          maxCommits).map formatCommit) ∧
    (gitLogLines (some stop) maxCommits chain []).length ≤ maxCommits ∧
    (∀ l ∈ gitLogLines (some stop) maxCommits chain [], ∃ c,
      c ∈ chain ∧ c.id ≠ stop ∧
      strStartsWith (firstLineOf c.message) ("Merge ") = false ∧
      l = formatCommit c) := by
  have hext : chain.takeWhile (fun c => decide ((some stop : Option String) ≠ some c.id))
      = chain.takeWhile (fun c => decide (c.id ≠ stop)) := by
    refine takeWhile_ext (fun a => ?_) chain
    rw [decide_eq_decide]
    constructor
    · intro h h2
      exact h (by rw [h2])
    · intro h h2
      injection h2 with h3
      exact h h3.symm
  have hmain := gitLogLines_eq (some stop) maxCommits chain []
  rw [hext] at hmain
  simp only [List.nil_append, List.length_nil, Nat.sub_zero] at hmain
  refine ⟨hmain, ?_, ?_⟩
  · rw [hmain]
    simp only [List.length_map]
    exact List.length_take_le _ _
  · intro l hl
    rw [hmain] at hl
    obtain ⟨c, hc, hfmt⟩ := List.mem_map.1 hl
    have hc2 := List.take_subset _ _ hc
    have hc3 := List.mem_filter.1 hc2
    have hc4 := (List.takeWhile_prefix _).subset hc3.1
    have hc5 := List.mem_takeWhile_imp hc3.1
    refine ⟨c, hc4, of_decide_eq_true hc5, ?_, hfmt.symm⟩
    have := hc3.2
    rwa [Bool.not_eq_true'] at this

/-- Witness for C2: a concrete chain with one merge commit, one ordinary
commit and a boundary; the membership clause applies to the emitted
line. -/
theorem getGitLog_boundary_merge_budget_witness :
    ∃ c, c ∈ [⟨("aaaaaaaaaaaaaaaaaaaaaaaaaaaaaaaaaaaaaaaa"), [],
                ("Merge branch x")⟩,
              ⟨("cccccccccccccccccccccccccccccccccccccccc"), [],
                ("Fix bug")⟩,
              (⟨("bbbbbbbbbbbbbbbbbbbbbbbbbbbbbbbbbbbbbbbb"), [],
                ("old tip")⟩ : CommitC)] ∧
      c.id ≠ ("bbbbbbbbbbbbbbbbbbbbbbbbbbbbbbbbbbbbbbbb") ∧
      strStartsWith (firstLineOf c.message) ("Merge ") = false ∧
      ("ccccccc Fix bug") = formatCommit c := by
  have h := (getGitLog_boundary_merge_budget
    [⟨("aaaaaaaaaaaaaaaaaaaaaaaaaaaaaaaaaaaaaaaa"), [], ("Merge branch x")⟩,
     ⟨("cccccccccccccccccccccccccccccccccccccccc"), [], ("Fix bug")⟩,
     ⟨("bbbbbbbbbbbbbbbbbbbbbbbbbbbbbbbbbbbbbbbb"), [], ("old tip")⟩]
    ("bbbbbbbbbbbbbbbbbbbbbbbbbbbbbbbbbbbbbbbb") 50).2.2
  exact h ("ccccccc Fix bug") (by decide)

/-- Counterexample for C5 as stated: a commit with two parents whose first
message line does not start with `"Merge "` is emitted by the extractor,
not skipped, although the spec's `isMerge` predicate classifies it as a
merge. -/
theorem gitLog_parent_count_counterexample :
    gitLogLines none 50
      [⟨("aaaaaaaaaaaaaaaaaaaaaaaaaaaaaaaaaaaaaaaa"), [("p1"), ("p2")],
        ("Add feature")⟩] []
      = [("aaaaaaa Add feature")] ∧
    ([("p1"), ("p2")] : List String).length > 1 ∧
    strStartsWith (firstLineOf ("Add feature")) ("Merge ") = false := by
  refine ⟨by decide, by decide, by decide⟩

/-- **C5 (amended).** The extractor's merge test is the message heuristic
alone: parent counts are never consulted (erasing them changes nothing),
and every emitted line comes from a commit whose first message line does
not start with `"Merge "`; a multi-parent commit with any other first
line is emitted. -/
theorem gitLog_skips_by_message_only (chain : List CommitC)
    (stopAt : Option String) (maxCommits : Nat) :
    gitLogLines stopAt maxCommits chain [] =
      gitLogLines stopAt maxCommits
        (chain.map (fun c => { c with parents := [] })) [] ∧
    (∀ l ∈ gitLogLines stopAt maxCommits chain [], ∃ c, c ∈ chain ∧
      strStartsWith (firstLineOf c.message) ("Merge ") = false ∧
      l = formatCommit c) := by
  constructor
  · have : ∀ (ch : List CommitC) (acc : List String),
        gitLogLines stopAt maxCommits ch acc =
          gitLogLines stopAt maxCommits
            (ch.map (fun c => { c with parents := [] })) acc := by
      intro ch
      induction ch with
      | nil => intro acc; rfl
      | cons c rest ih =>
        intro acc
        by_cases h1 : stopAt = some c.id
        · simp [gitLogLines, h1]
        · by_cases h2 : maxCommits ≤ acc.length
          · simp [gitLogLines, h1, h2]
          · by_cases h4 : strStartsWith (firstLineOf c.message) ("Merge ")
            · simp [gitLogLines, h1, h2, h4, ih]
            · simp [gitLogLines, h1, h2, h4, ih, formatCommit]
    exact this chain []
  · intro l hl
    rw [gitLogLines_eq] at hl
    simp only [List.nil_append, List.length_nil, Nat.sub_zero] at hl
    obtain ⟨c, hc, hfmt⟩ := List.mem_map.1 hl
    have hc2 := List.take_subset _ _ hc
    have hc3 := List.mem_filter.1 hc2
    have hc4 := (List.takeWhile_prefix _).subset hc3.1
    refine ⟨c, hc4, ?_, hfmt.symm⟩
    have := hc3.2
    rwa [Bool.not_eq_true'] at this

/-- Witness for the amended C5 at a concrete chain containing a
two-parent, non-`"Merge "` commit. -/
theorem gitLog_skips_by_message_only_witness :
    ∃ c, c ∈ [(⟨("aaaaaaaaaaaaaaaaaaaaaaaaaaaaaaaaaaaaaaaa"), [("p1"), ("p2")],
                ("Add feature")⟩ : CommitC)] ∧
      strStartsWith (firstLineOf c.message) ("Merge ") = false ∧
      ("aaaaaaa Add feature") = formatCommit c := by
  have h := (gitLog_skips_by_message_only
    [⟨("aaaaaaaaaaaaaaaaaaaaaaaaaaaaaaaaaaaaaaaa"), [("p1"), ("p2")],
      ("Add feature")⟩] none 50).2
  exact h ("aaaaaaa Add feature") (by decide)

/-- `!=` on `Ordering` against `.gt`, in propositional form. -/
theorem bne_gt_iff (x : Ordering) :
    (x != Ordering.gt) = true ↔ x ≠ Ordering.gt := by
  cases x <;> simp [bne] <;> decide

/-- The sort relation used by `sorted_version_tags` is transitive. -/
theorem tagSortLe_trans (a b c : Version × String)
    (h1 : (versionCmp b.1 a.1 != .gt) = true)
    (h2 : (versionCmp c.1 b.1 != .gt) = true) :
    (versionCmp c.1 a.1 != .gt) = true := by
  rw [bne_gt_iff] at h1 h2 ⊢
  exact versionCmp_lawful.le_trans h2 h1

/-- The sort relation used by `sorted_version_tags` is total. -/
theorem tagSortLe_total (a b : Version × String) :
    ((versionCmp b.1 a.1 != .gt) || (versionCmp a.1 b.1 != .gt)) = true := by
  rcases versionCmp_lawful.total b.1 a.1 with h | h
  · rw [Bool.or_eq_true, bne_gt_iff]
    exact Or.inl h
  · rw [Bool.or_eq_true, bne_gt_iff, bne_gt_iff]
    exact Or.inr h

/-- **C6.** `sortedVersionTags` contains exactly the tag names whose text
(after stripping an optional leading `v`) parses as valid semver, each
paired with its parsed version (invalid entries are excluded), and the
result is sorted descending by semver precedence — prerelease-aware and
with build metadata irrelevant to the precedence relation (the crate's
order only uses build as a tie-break inside equal-precedence groups, so
the list is descending for build-metadata-ignoring precedence). -/
theorem sorted_version_tags_spec (tags : List String) :
    (∀ v n, (v, n) ∈ sorted_version_tags tags ↔
      (n ∈ tags ∧ Version.parse (stripLeadingV n) = some v)) ∧
    (sorted_version_tags tags).Pairwise
      (fun x y => precCmp x.1 y.1 ≠ .lt) := by
  constructor
  · intro v n
    unfold sorted_version_tags
    rw [(List.mergeSort_perm _ _).mem_iff, List.mem_filterMap]
    constructor
    · rintro ⟨a, ha, hfa⟩
      rw [Option.map_eq_some'] at hfa
      obtain ⟨w, hw, hpair⟩ := hfa
      have h1 : w = v := congrArg Prod.fst hpair
      have h2 : a = n := congrArg Prod.snd hpair
      subst h1
      subst h2
      exact ⟨ha, hw⟩
    · rintro ⟨hn, hp⟩
      exact ⟨n, hn, by rw [hp]; rfl⟩
  · unfold sorted_version_tags
    have hs := List.sorted_mergeSort tagSortLe_trans tagSortLe_total
      (tags.filterMap (fun name =>
        (Version.parse (stripLeadingV name)).map (fun v => (v, name))))
    refine hs.imp ?_
    intro a b hab
    rw [bne_gt_iff] at hab
    intro hlt
    have hv : versionCmp a.1 b.1 = .lt := by
      rw [versionCmp_split, hlt]
      rfl
    exact hab ((versionCmp_lawful.lt_iff_swap_gt a.1 b.1).1 hv)

/-- Witness for C6: membership of a concrete parsed tag in the sorted
output. -/
theorem sorted_version_tags_spec_witness :
    ((⟨2, 0, 0, "", ""⟩ : Version), ("v2.0.0")) ∈
      sorted_version_tags [("v1.0.0"), ("foo"), ("v2.0.0")] :=
  ((sorted_version_tags_spec [("v1.0.0"), ("foo"), ("v2.0.0")]).1
    ⟨2, 0, 0, "", ""⟩ ("v2.0.0")).2 ⟨by decide, by decide⟩

/-- Counterexample for C3 as stated: with tags `v1.0.0` and `v2.0.0` and
current tag `v1.0.0`, `find_previous_tag` returns `v2.0.0`, whose version
is strictly *above* the current one in semver precedence, although no tag
strictly below `v1.0.0` exists (the claim requires `None` then). -/
theorem find_previous_tag_counterexample :
    find_previous_tag [("v1.0.0"), ("v2.0.0")] ("v1.0.0") = some ("v2.0.0") ∧
    precCmp (⟨2, 0, 0, "", ""⟩ : Version) (⟨1, 0, 0, "", ""⟩ : Version) = .gt := by
  constructor
  · have hd : (([("v1.0.0"), ("v2.0.0")] : List String).filterMap (fun name =>
        (Version.parse (stripLeadingV name)).map (fun v => (v, name)))) =
        [((⟨1, 0, 0, "", ""⟩ : Version), ("v1.0.0")),
         ((⟨2, 0, 0, "", ""⟩ : Version), ("v2.0.0"))] := by decide
    have h1 : sorted_version_tags [("v1.0.0"), ("v2.0.0")] =
        [((⟨2, 0, 0, "", ""⟩ : Version), ("v2.0.0")),
         ((⟨1, 0, 0, "", ""⟩ : Version), ("v1.0.0"))] := by
      unfold sorted_version_tags
      rw [hd]
      simp +decide [List.mergeSort, List.merge, List.splitInTwo]
    unfold find_previous_tag
    rw [h1]
    decide
  · decide

/-- **C3 (amended).** `find_previous_tag(current)` returns the *first*
entry of `sortedVersionTags` whose name differs from `current` — which is
the immediate descending neighbor exactly when `current` heads the sorted
list — and `None` (not an error) when every tag is named `current` or the
list is empty. -/
theorem find_previous_tag_amended (tags : List String) (current : String) :
    (find_previous_tag tags current =
      ((sorted_version_tags tags).map (fun p => p.2)).find?
        (fun name => name != current)) ∧
    (∀ v rest, sorted_version_tags tags = (v, current) :: rest →
      (∀ p ∈ rest, p.2 ≠ current) →
      find_previous_tag tags current = (rest.map (fun p => p.2)).head?) ∧
    ((∀ p ∈ sorted_version_tags tags, p.2 = current) →
      find_previous_tag tags current = none) := by
  refine ⟨rfl, ?_, ?_⟩
  · intro v rest hsort hrest
    unfold find_previous_tag
    rw [hsort]
    simp only [List.map_cons, List.find?_cons, bne_self_eq_false]
    cases rest with
    | nil => rfl
    | cons r rs =>
      simp only [List.map_cons, List.find?_cons, List.head?_cons]
      have hr : (r.2 != current) = true := by
        rw [bne_iff_ne]
        exact hrest r (List.mem_cons_self r rs)
      rw [hr]
  · intro hall
    unfold find_previous_tag
    rw [List.find?_eq_none]
    intro x hx
    obtain ⟨p, hp, hpx⟩ := List.mem_map.1 hx
    rw [bne_iff_ne]
    intro hne
    exact hne (hpx ▸ hall p hp)

/-- Witness for the amended C3: when the current tag heads the sorted
list, the result is its immediate descending neighbor. -/
theorem find_previous_tag_amended_witness :
    find_previous_tag [("v2.0.0"), ("v1.0.0")] ("v2.0.0") = some ("v1.0.0") := by
  have hd : (([("v2.0.0"), ("v1.0.0")] : List String).filterMap (fun name =>
      (Version.parse (stripLeadingV name)).map (fun v => (v, name)))) =
      [((⟨2, 0, 0, "", ""⟩ : Version), ("v2.0.0")),
       ((⟨1, 0, 0, "", ""⟩ : Version), ("v1.0.0"))] := by decide
  have h1 : sorted_version_tags [("v2.0.0"), ("v1.0.0")] =
      [((⟨2, 0, 0, "", ""⟩ : Version), ("v2.0.0")),
       ((⟨1, 0, 0, "", ""⟩ : Version), ("v1.0.0"))] := by
    unfold sorted_version_tags
    rw [hd]
    simp +decide [List.mergeSort, List.merge, List.splitInTwo]
  have h2 := (find_previous_tag_amended [("v2.0.0"), ("v1.0.0")]
    ("v2.0.0")).2.1 ⟨2, 0, 0, "", ""⟩
    [((⟨1, 0, 0, "", ""⟩ : Version), ("v1.0.0"))] h1 (by decide)
  exact h2.trans (by decide)

/-- Inversion of the creation path: a `created t` outcome implies the
version was read and parsed, neither naming convention existed, `HEAD`
was born, and `t` is the preferred candidate. -/
theorem ensure_created_inv (r : RepoSt) (c : String) (pfx : TagPfx)
    (t : String)
    (h : ensure_current_version_tag (some r) (some c) pfx = .ok (.created t)) :
    ∃ vs v, read_pubspec_version c = some vs ∧ Version.parse vs = some v ∧
      tag_exists r (tagBase v) = false ∧
      tag_exists r ("v" ++ tagBase v) = false ∧
      r.head ≠ Option.none ∧ tag_exists r t = false ∧
      t = preferredTag pfx (tagBase v) ("v" ++ tagBase v) := by
  rcases hrv : read_pubspec_version c with _ | vs
  · simp [ensure_current_version_tag, hrv] at h
  · rcases hp : Version.parse vs with _ | v
    · simp [ensure_current_version_tag, hrv, hp] at h
    · by_cases hex : (tag_exists r (tagBase v) ||
          tag_exists r ("v" ++ tagBase v)) = true
      · simp [ensure_current_version_tag, hrv, hp, hex] at h
      · rcases hh : r.head with _ | hc
        · simp [ensure_current_version_tag, hrv, hp, hex, hh] at h
        · by_cases hpref : tag_exists r
              (preferredTag pfx (tagBase v) ("v" ++ tagBase v)) = true
          · simp [ensure_current_version_tag, hrv, hp, hex, hh, hpref] at h
          · simp [ensure_current_version_tag, hrv, hp, hex, hh, hpref] at h
            simp only [Bool.or_eq_true, not_or] at hex
            refine ⟨vs, v, rfl, hp, ?_, ?_, by simp [hh], ?_, h.symm⟩
            · simpa using hex.1
            · simpa using hex.2
            · rw [h] at hpref
              simpa using hpref

/-- Counterexample for C4 as stated: an unreadable manifest at tag-sync
time does *not* degrade to a skip — `ensure_current_version_tag`
propagates the read failure with `?`, aborting the run. -/
theorem ensure_tag_unreadable_counterexample :
    ensure_current_version_tag (some ⟨[], some ("h")⟩) Option.none .v =
      .error ("Failed to read pubspec.yaml") := rfl

/-- **C4 (amended).** At tag-sync time: not being in a repository, a
version-less manifest, an unparseable version string, and an unborn HEAD
each cause the step to skip (log and return success), leaving the bump
unaffected; with a *readable* manifest the step always returns success.
An *unreadable* manifest, by contrast, aborts the step (the error is
propagated, and the subsequent bump — which reads the same file — could
not proceed either). -/
theorem ensure_tag_soft_failures (r : RepoSt) (c : String) (pfx : TagPfx) :
    (∀ co : Option String,
      ensure_current_version_tag Option.none co pfx = .ok .skippedNotARepo) ∧
    (ensure_current_version_tag (some r) (some c) pfx).isOk = true ∧
    (read_pubspec_version c = Option.none →
      ensure_current_version_tag (some r) (some c) pfx =
        .ok .skippedNoVersion) ∧
    (∀ vs, read_pubspec_version c = some vs →
      Version.parse vs = Option.none →
      ensure_current_version_tag (some r) (some c) pfx =
        .ok .skippedInvalidVersion) ∧
    (∀ vs v, read_pubspec_version c = some vs → Version.parse vs = some v →
      tag_exists r (tagBase v) = false →
      tag_exists r ("v" ++ tagBase v) = false →
      r.head = Option.none →
      ensure_current_version_tag (some r) (some c) pfx =
        .ok .skippedUnbornHead) ∧
    (∃ e, ensure_current_version_tag (some r) Option.none pfx = .error e) := by
  refine ⟨fun co => rfl, ?_, ?_, ?_, ?_,
    ⟨("Failed to read pubspec.yaml"), rfl⟩⟩
  · rcases hrv : read_pubspec_version c with _ | vs
    · simp [ensure_current_version_tag, hrv, Except.isOk, Except.toBool]
    · rcases hp : Version.parse vs with _ | v
      · simp [ensure_current_version_tag, hrv, hp, Except.isOk, Except.toBool]
      · by_cases hex : (tag_exists r (tagBase v) ||
            tag_exists r ("v" ++ tagBase v)) = true
        · simp [ensure_current_version_tag, hrv, hp, hex, Except.isOk,
            Except.toBool]
        · rcases hh : r.head with _ | hc
          · simp [ensure_current_version_tag, hrv, hp, hex, hh, Except.isOk,
              Except.toBool]
          · have hpref : tag_exists r
                (preferredTag pfx (tagBase v) ("v" ++ tagBase v)) = false := by
              simp only [Bool.or_eq_true, not_or] at hex
              cases pfx
              · simpa using hex.2
              · simpa using hex.1
            simp [ensure_current_version_tag, hrv, hp, hex, hh, hpref,
              Except.isOk, Except.toBool]
  · intro hrv
    simp [ensure_current_version_tag, hrv]
  · intro vs hrv hp
    simp [ensure_current_version_tag, hrv, hp]
  · intro vs v hrv hp hex1 hex2 hh
    simp [ensure_current_version_tag, hrv, hp, hex1, hex2, hh]

/-- Witness for the amended C4: a manifest without a version line makes
the step skip with success. -/
theorem ensure_tag_soft_failures_witness :
    ensure_current_version_tag (some ⟨[], some ("h")⟩)
      (some ("name: app\n")) .v = .ok .skippedNoVersion :=
  (ensure_tag_soft_failures ⟨[], some ("h")⟩ ("name: app\n") .v).2.2.1
    (by decide)

/-- **C7.** The tag-sync step derives the tag core from the current
version ignoring build metadata, checks both the bare and the
`v`-prefixed candidate before creating anything — either existing form
alone short-circuits creation — creates a tag only when neither form
exists, and is idempotent: running it twice for the same (manifest, HEAD)
pair changes the tag namespace at most once. -/
theorem tag_sync_idempotent (r : RepoSt) (c : String) (pfx : TagPfx) :
    (∀ v b, tagBase { v with build := b } = tagBase v) ∧
    (∀ t, ensure_current_version_tag (some r) (some c) pfx =
        .ok (.created t) →
      ∃ vs v, read_pubspec_version c = some vs ∧ Version.parse vs = some v ∧
        tag_exists r (tagBase v) = false ∧
        tag_exists r ("v" ++ tagBase v) = false ∧
        t = preferredTag pfx (tagBase v) ("v" ++ tagBase v)) ∧
    (∀ vs v, read_pubspec_version c = some vs → Version.parse vs = some v →
      (tag_exists r (tagBase v) = true ∨
        tag_exists r ("v" ++ tagBase v) = true) →
      ensure_current_version_tag (some r) (some c) pfx =
        .ok .alreadyTagged) ∧
    applyTagSync (applyTagSync r (some c) pfx) (some c) pfx =
      applyTagSync r (some c) pfx := by
  refine ⟨fun v b => rfl, ?_, ?_, ?_⟩
  · intro t h
    obtain ⟨vs, v, h1, h2, h3, h4, _, _, h7⟩ := ensure_created_inv r c pfx t h
    exact ⟨vs, v, h1, h2, h3, h4, h7⟩
  · intro vs v hrv hp hdisj
    have hex : (tag_exists r (tagBase v) ||
        tag_exists r ("v" ++ tagBase v)) = true := by
      rcases hdisj with h | h <;> simp [h]
    simp [ensure_current_version_tag, hrv, hp, hex]
  · rcases he : ensure_current_version_tag (some r) (some c) pfx with e | o
    · have h0 : applyTagSync r (some c) pfx = r := by
        simp [applyTagSync, he]
      rw [h0, h0]
    · cases o with
      | created t =>
        obtain ⟨vs, v, hrv, hp, hex1, hex2, _, _, hpt⟩ :=
          ensure_created_inv r c pfx t he
        have h0 : applyTagSync r (some c) pfx = { r with tags := t :: r.tags } := by
          simp [applyTagSync, he]
        have hex' : (tag_exists { r with tags := t :: r.tags } (tagBase v) ||
            tag_exists { r with tags := t :: r.tags }
              ("v" ++ tagBase v)) = true := by
          subst hpt
          cases pfx
          · simp [tag_exists, preferredTag]
          · simp [tag_exists, preferredTag]
        have he2 : ensure_current_version_tag
            (some { r with tags := t :: r.tags }) (some c) pfx =
            .ok .alreadyTagged := by
          simp [ensure_current_version_tag, hrv, hp, hex']
        have h1 : applyTagSync { r with tags := t :: r.tags } (some c) pfx =
            { r with tags := t :: r.tags } := by
          simp [applyTagSync, he2]
        rw [h0, h1]
      | skippedNotARepo =>
        have h0 : applyTagSync r (some c) pfx = r := by simp [applyTagSync, he]
        rw [h0, h0]
      | skippedNoVersion =>
        have h0 : applyTagSync r (some c) pfx = r := by simp [applyTagSync, he]
        rw [h0, h0]
      | skippedInvalidVersion =>
        have h0 : applyTagSync r (some c) pfx = r := by simp [applyTagSync, he]
        rw [h0, h0]
      | skippedUnbornHead =>
        have h0 : applyTagSync r (some c) pfx = r := by simp [applyTagSync, he]
        rw [h0, h0]
      | alreadyTagged =>
        have h0 : applyTagSync r (some c) pfx = r := by simp [applyTagSync, he]
        rw [h0, h0]

/-- Witness for C7 at a concrete repository: an existing bare-form tag
short-circuits to `AlreadyTagged`. -/
theorem tag_sync_idempotent_witness :
    ensure_current_version_tag (some ⟨[("1.2.3")], some ("h")⟩)
      (some ("version: 1.2.3\n")) .v = .ok .alreadyTagged :=
  (tag_sync_idempotent ⟨[("1.2.3")], some ("h")⟩ ("version: 1.2.3\n")
    .v).2.2.1 ("1.2.3") ⟨1, 2, 3, "", ""⟩ (by decide) (by decide)
    (Or.inl (by decide))

/-- **C8.** Whenever the summarization call fails — transport/decode
error, an error payload in the response, or an empty text — the composer
does not propagate the error: the final changelog is the header naming
the previous tag (the literal `"initial"` when absent) followed by
exactly one bullet line per raw commit-log line, in input order (the
bullet list is the per-line map of the raw log). -/
theorem changelog_fallback_spec (resp : Except String ApiResponseM)
    (prev : Option String) (gitLog : String) :
    (∀ e : String,
      composeChangelog (call_claude (.error e)) (prevTagStr prev) gitLog =
        fallbackChangelog (prevTagStr prev) gitLog) ∧
    (∀ r : ApiResponseM, ∀ m, r.error = some m →
      composeChangelog (call_claude (.ok r)) (prevTagStr prev) gitLog =
        fallbackChangelog (prevTagStr prev) gitLog) ∧
    (∀ r : ApiResponseM, r.error = Option.none → extractText r = "" →
      composeChangelog (call_claude (.ok r)) (prevTagStr prev) gitLog =
        fallbackChangelog (prevTagStr prev) gitLog) ∧
    ((call_claude resp).isOk = false →
      composeChangelog (call_claude resp) (prevTagStr prev) gitLog =
        "## Changes since " ++ prevTagStr prev ++ "\n\n" ++
          String.intercalate ("\n")
            ((rustLines gitLog).map (fun l => "- " ++ l))) ∧
    ((rustLines gitLog).map (fun l => "- " ++ l)).length =
      (rustLines gitLog).length ∧
    prevTagStr Option.none = "initial" := by
  refine ⟨fun e => rfl, ?_, ?_, ?_, List.length_map _ _, rfl⟩
  · intro r m hm
    simp [call_claude, composeChangelog, hm]
  · intro r hr ht
    simp [call_claude, composeChangelog, hr, ht]
  · intro hfail
    rcases resp with e | r
    · rfl
    · rcases hm : r.error with _ | m
      · by_cases ht : extractText r = ""
        · simp [call_claude, composeChangelog, fallbackChangelog, hm, ht]
        · simp [call_claude, hm, ht, Except.isOk, Except.toBool] at hfail
      · simp [call_claude, composeChangelog, fallbackChangelog, hm]

/-- Witness for C8 at a concrete failing response (block list without
text) and a two-line log. -/
theorem changelog_fallback_spec_witness :
    composeChangelog
      (call_claude (.ok ⟨some [Option.none], Option.none⟩))
      (prevTagStr Option.none) ("abc one\ndef two") =
      "## Changes since initial\n\n- abc one\n- def two" := by
  have h := (changelog_fallback_spec
    (.ok ⟨some [Option.none], Option.none⟩) Option.none
    ("abc one\ndef two")).2.2.1 ⟨some [Option.none], Option.none⟩ rfl
    (by decide)
  exact h.trans (by decide)

theorem hasPre_iff (a : List Char) :
    ∀ b, hasPre a b = true ↔ ∃ t, b = a ++ t := by
  induction a with
  | nil => intro b; simp [hasPre]
  | cons x xs ih =>
    intro b
    cases b with
    | nil => simp [hasPre]
    | cons y ys =>
      simp only [hasPre, Bool.and_eq_true, beq_iff_eq, ih ys]
      constructor
      · rintro ⟨rfl, t, rfl⟩
        exact ⟨t, rfl⟩
      · rintro ⟨t, ht⟩
        injection ht with h1 h2
        exact ⟨h1.symm, t, h2⟩

theorem splitChars_noNL (a : List Char) (h : ∀ ch ∈ a, ch ≠ '\n') :
    splitChars '\n' a = [a] := by
  induction a with
  | nil => rfl
  | cons c cs ih =>
    have hc : c ≠ '\n' := h c (by simp)
    have ih' := ih (fun ch hch => h ch (by simp [hch]))
    simp [splitChars, hc, ih']

theorem splitChars_append_cons_nl (a b : List Char)
    (h : ∀ ch ∈ a, ch ≠ '\n') :
    splitChars '\n' (a ++ '\n' :: b) = a :: splitChars '\n' b := by
  induction a with
  | nil => simp [splitChars]
  | cons c cs ih =>
    have hc : c ≠ '\n' := h c (by simp)
    have ih' := ih (fun ch hch => h ch (by simp [hch]))
    simp [splitChars, hc, ih']

theorem splitChars_append_endNL :
    ∀ pre : List Char, pre.getLast? = some '\n' →
    ∃ L : List (List Char), L ≠ [] ∧
      ∀ x, splitChars '\n' (pre ++ x) = L ++ splitChars '\n' x := by
  intro pre
  induction pre with
  | nil => intro h; simp at h
  | cons c cs ih =>
    intro h
    cases cs with
    | nil =>
      have hc : c = '\n' := by simpa using h
      subst hc
      exact ⟨[[]], by simp, fun x => by simp [splitChars]⟩
    | cons d ds =>
      have h' : (d :: ds).getLast? = some '\n' := by
        rwa [List.getLast?_cons_cons] at h
      obtain ⟨L', hne, hfa⟩ := ih h'
      by_cases hc : c = '\n'
      · subst hc
        refine ⟨[] :: L', by simp, fun x => ?_⟩
        rw [List.cons_append, splitChars, if_pos rfl, hfa x]
        simp
      · cases L' with
        | nil => exact absurd rfl hne
        | cons m ms =>
          refine ⟨(c :: m) :: ms, by simp, fun x => ?_⟩
          rw [List.cons_append, splitChars, if_neg hc, hfa x]
          simp

/-- Replacing a newline-free segment that spans exactly one line (the
text before it ends at a line boundary, the text after it starts with a
newline or is empty) changes exactly that line of the split and nothing
else. -/
theorem lines_splice (pre mid mid' suf : List Char)
    (hpre : pre = [] ∨ pre.getLast? = some '\n')
    (hmid : ∀ ch ∈ mid, ch ≠ '\n') (hmid' : ∀ ch ∈ mid', ch ≠ '\n')
    (hsuf : suf = [] ∨ ∃ s', suf = '\n' :: s') :
    ∃ L rest,
      splitChars '\n' (pre ++ mid ++ suf) = L ++ mid :: rest ∧
      splitChars '\n' (pre ++ mid' ++ suf) = L ++ mid' :: rest := by
  rcases hsuf with rfl | ⟨s', rfl⟩
  · rcases hpre with rfl | hpre
    · exact ⟨[], [], by simpa using splitChars_noNL mid hmid,
        by simpa using splitChars_noNL mid' hmid'⟩
    · obtain ⟨L, _, hfa⟩ := splitChars_append_endNL pre hpre
      refine ⟨L, [], ?_, ?_⟩
      · rw [List.append_assoc, hfa]
        rw [show splitChars '\n' (mid ++ []) = [mid] from
          by simpa using splitChars_noNL mid hmid]
      · rw [List.append_assoc, hfa]
        rw [show splitChars '\n' (mid' ++ []) = [mid'] from
          by simpa using splitChars_noNL mid' hmid']
  · rcases hpre with rfl | hpre
    · exact ⟨[], splitChars '\n' s',
        by simpa using splitChars_append_cons_nl mid s' hmid,
        by simpa using splitChars_append_cons_nl mid' s' hmid'⟩
    · obtain ⟨L, _, hfa⟩ := splitChars_append_endNL pre hpre
      refine ⟨L, splitChars '\n' s', ?_, ?_⟩
      · rw [List.append_assoc, hfa, splitChars_append_cons_nl mid s' hmid]
      · rw [List.append_assoc, hfa, splitChars_append_cons_nl mid' s' hmid']

theorem dropWhile_head_not {α : Type _} (q : α → Bool) :
    ∀ l : List α, l.dropWhile q = [] ∨
      ∃ h t, l.dropWhile q = h :: t ∧ q h = false := by
  intro l
  induction l with
  | nil => left; rfl
  | cons a as ih =>
    by_cases hq : q a = true
    · rw [List.dropWhile_cons_of_pos hq]
      exact ih
    · rw [List.dropWhile_cons_of_neg hq]
      exact Or.inr ⟨a, as, rfl, by simpa using hq⟩

theorem findCapStart_sound (tail : List Char) :
    ∀ k0 k, findCapStart tail k0 = some k →
      k ≤ k0 ∧ capOk tail k = true := by
  intro k0
  induction k0 with
  | zero =>
    intro k h
    unfold findCapStart at h
    by_cases hok : capOk tail 0 = true
    · rw [if_pos hok] at h
      injection h with h1
      subst h1
      exact ⟨Nat.le_refl 0, hok⟩
    · rw [if_neg hok] at h
      exact absurd h (by simp)
  | succ n ih =>
    intro k h
    unfold findCapStart at h
    by_cases hok : capOk tail (n + 1) = true
    · rw [if_pos hok] at h
      injection h with h1
      subst h1
      exact ⟨Nat.le_refl _, hok⟩
    · rw [if_neg hok] at h
      obtain ⟨h1, h2⟩ := ih k h
      exact ⟨Nat.le_succ_of_le h1, h2⟩

theorem matchAfterColon_sound (tail : List Char) (m : Nat) (cap : List Char)
    (h : matchAfterColon tail = some (m, cap)) :
    ∃ k, m = k + cap.length ∧
      (∀ ch ∈ tail.take k, rsSpace ch = true) ∧
      cap = (tail.drop k).takeWhile (fun c => c != '\n') ∧
      cap ≠ [] ∧ (∀ ch ∈ cap, ch ≠ '\n') ∧
      (tail.drop m = [] ∨ ∃ s', tail.drop m = '\n' :: s') := by
  unfold matchAfterColon at h
  simp only [] at h
  rcases hf : findCapStart tail ((tail.takeWhile rsSpace).length) with _ | k
  · rw [hf] at h
    exact absurd h (by simp)
  · rw [hf] at h
    simp only [Option.some.injEq, Prod.mk.injEq] at h
    obtain ⟨hm, hcap⟩ := h
    obtain ⟨hk_le, hok⟩ := findCapStart_sound tail _ k hf
    have hsplit := List.takeWhile_append_dropWhile rsSpace tail
    have hm' : m = k + cap.length := by
      rw [← hm, hcap]
    refine ⟨k, hm', ?_, hcap.symm, ?_, ?_, ?_⟩
    · intro ch hch
      have htk : tail.take k = (tail.takeWhile rsSpace).take k := by
        conv_lhs => rw [← hsplit]
        exact List.take_append_of_le_length hk_le
      rw [htk] at hch
      exact List.mem_takeWhile_imp (List.take_subset _ _ hch)
    · rcases hdrop : tail.drop k with _ | ⟨c, t⟩
      · unfold capOk at hok
        rw [hdrop] at hok
        simp at hok
      · have hc : (c != '\n') = true := by
          unfold capOk at hok
          rw [hdrop] at hok
          simpa using hok
        rw [← hcap, hdrop]
        simp [List.takeWhile_cons, hc]
    · intro ch hch
      rw [← hcap] at hch
      have := List.mem_takeWhile_imp hch
      simpa using this
    · have hdm : tail.drop m =
          (tail.drop k).dropWhile (fun c => c != '\n') := by
        have h1 : tail.drop k =
            cap ++ (tail.drop k).dropWhile (fun c => c != '\n') := by
          rw [← hcap]
          exact (List.takeWhile_append_dropWhile _ _).symm
        have h2 : tail.drop m = (tail.drop k).drop cap.length := by
          rw [List.drop_drop, hm']
        rw [h2]
        nth_rewrite 1 [h1]
        rw [List.drop_left]
      rcases dropWhile_head_not (fun c => c != '\n') (tail.drop k) with
        hnil | ⟨hh, ht, heq, hq⟩
      · left
        rw [hdm, hnil]
      · right
        have : hh = '\n' := by simpa using hq
        subst this
        exact ⟨ht, by rw [hdm, heq]⟩

theorem scanVersionLine_sound :
    ∀ (cs : List Char) (flag : Bool) (pos p e : Nat) (cap : List Char),
    scanVersionLine cs flag pos = some (p, e, cap) →
    ∃ skip rest, cs = skip ++ rest ∧ p = pos + skip.length ∧
      (skip = [] → flag = true) ∧
      (∀ l, skip.getLast? = some l → l = '\n') ∧
      hasPre (("version:").toList) rest = true ∧
      matchAfterColon (rest.drop 8) = some (e - (p + 8), cap) ∧
      p + 8 ≤ e := by
  intro cs
  induction cs with
  | nil =>
    intro flag pos p e cap h
    simp [scanVersionLine] at h
  | cons c rest' ih =>
    intro flag pos p e cap h
    have step : scanVersionLine rest' (c == '\n') (pos + 1) =
        some (p, e, cap) →
        ∃ skip rest, c :: rest' = skip ++ rest ∧ p = pos + skip.length ∧
          (skip = [] → flag = true) ∧
          (∀ l, skip.getLast? = some l → l = '\n') ∧
          hasPre (("version:").toList) rest = true ∧
          matchAfterColon (rest.drop 8) = some (e - (p + 8), cap) ∧
          p + 8 ≤ e := by
      intro hrec
      obtain ⟨skip, rest, h1, h2, h3, h4, h5, h6, h7⟩ :=
        ih (c == '\n') (pos + 1) p e cap hrec
      refine ⟨c :: skip, rest, ?_, ?_, ?_, ?_, h5, h6, h7⟩
      · rw [List.cons_append, h1]
      · simp only [List.length_cons, h2]
        omega
      · intro hx
        exact absurd hx (by simp)
      · intro l hl
        cases skip with
        | nil =>
          simp only [List.getLast?_singleton, Option.some.injEq] at hl
          subst hl
          have h8 := h3 rfl
          simpa using h8
        | cons s ss =>
          rw [List.getLast?_cons_cons] at hl
          exact h4 l hl
    rw [scanVersionLine] at h
    by_cases hcond : (flag && hasPre (("version:").toList) (c :: rest')) = true
    · rw [if_pos hcond] at h
      rcases hm : matchAfterColon ((c :: rest').drop 8) with _ | mc
      · rw [hm] at h
        exact step h
      · rw [hm] at h
        obtain ⟨m2, cap2⟩ := mc
        simp only [Option.some.injEq, Prod.mk.injEq] at h
        obtain ⟨hp, he, hcap⟩ := h
        rw [Bool.and_eq_true] at hcond
        refine ⟨[], c :: rest', by simp, by simp [hp], fun _ => hcond.1,
          ?_, hcond.2, ?_, ?_⟩
        · intro l hl
          simp at hl
        · rw [hm, ← hcap]
          have : e - (p + 8) = m2 := by omega
          rw [this]
        · omega
    · rw [if_neg hcond] at h
      exact step h

theorem strToList_append (a b : String) :
    (a ++ b).toList = a.toList ++ b.toList := String.data_append a b

theorem digitChar_isDigit (d : Nat) (h : d < 10) :
    (Char.ofNat (48 + d)).isDigit = true := by
  interval_cases d <;> decide

theorem natReprAux_digits :
    ∀ fuel n, ∀ ch ∈ natReprAux fuel n, ch.isDigit = true := by
  intro fuel
  induction fuel with
  | zero =>
    intro n ch h
    simp [natReprAux] at h
  | succ f ih =>
    intro n ch h
    unfold natReprAux at h
    by_cases hn : n < 10
    · rw [if_pos hn] at h
      simp only [List.mem_singleton] at h
      subst h
      exact digitChar_isDigit n hn
    · rw [if_neg hn] at h
      rcases List.mem_append.1 h with h1 | h2
      · exact ih _ ch h1
      · simp only [List.mem_singleton] at h2
        subst h2
        exact digitChar_isDigit _ (Nat.mod_lt _ (by omega))

theorem natRepr_digits (n : Nat) :
    ∀ ch ∈ (natRepr n).toList, ch.isDigit = true :=
  natReprAux_digits (n + 1) n

theorem identsLoop_chars (numRule : Bool) :
    ∀ (cs cur out rest : List Char),
    identsLoop numRule cs cur = some (out, rest) →
    (∀ ch ∈ cur, isIdentChar ch = true ∨ ch = '.') →
    ∀ ch ∈ out, isIdentChar ch = true ∨ ch = '.' := by
  intro cs
  induction cs with
  | nil =>
    intro cur out rest h hcur ch hch
    unfold identsLoop at h
    split_ifs at h with h1 h2
    · injection h with h3
      injection h3 with h4 h5
      subst h4
      exact hcur ch hch
  | cons c cs' ih =>
    intro cur out rest h hcur ch hch
    unfold identsLoop at h
    by_cases hic : isIdentChar c = true
    · rw [if_pos hic] at h
      refine ih (cur ++ [c]) out rest h ?_ ch hch
      intro x hx
      rcases List.mem_append.1 hx with h1 | h2
      · exact hcur x h1
      · simp only [List.mem_singleton] at h2
        subst h2
        exact Or.inl hic
    · rw [if_neg hic] at h
      by_cases hdot : c = '.'
      · rw [if_pos hdot] at h
        split_ifs at h with h1 h2
        rcases hrec : identsLoop numRule cs' [] with _ | ⟨more, r⟩
        · rw [hrec] at h
          exact absurd h (by simp)
        · rw [hrec] at h
          injection h with h3
          injection h3 with h4 h5
          subst h4
          rcases List.mem_append.1 hch with hm1 | hm2
          · exact hcur ch hm1
          · rcases List.mem_cons.1 hm2 with hm3 | hm4
            · exact Or.inr hm3
            · exact ih [] more r hrec (by simp) ch hm4
      · rw [if_neg hdot] at h
        split_ifs at h with h1 h2
        injection h with h3
        injection h3 with h4 h5
        subst h4
        exact hcur ch hch

/-- Characters of a parsed prerelease: identifier chars or dots (the
semver grammar admits nothing else), in particular never a newline. -/
theorem parse_pre_chars (s : String) (v : Version)
    (h : Version.parse s = some v) :
    ∀ ch ∈ v.pre.toList, isIdentChar ch = true ∨ ch = '.' := by
  unfold Version.parse at h
  rcases h1 : parseNumComponent s.toList with _ | ⟨maj, r1⟩
  · rw [h1] at h
    simp at h
  rw [h1] at h
  simp only [] at h
  rcases r1 with _ | ⟨c1, r2⟩
  · simp at h
  simp only [] at h
  by_cases hc1 : c1 = '.'
  case neg =>
    rw [if_neg hc1] at h
    simp at h
  rw [if_pos hc1] at h
  rcases h2 : parseNumComponent r2 with _ | ⟨mino, r3⟩
  · rw [h2] at h
    simp at h
  rw [h2] at h
  simp only [] at h
  rcases r3 with _ | ⟨c2, r4⟩
  · simp at h
  simp only [] at h
  by_cases hc2 : c2 = '.'
  case neg =>
    rw [if_neg hc2] at h
    simp at h
  rw [if_pos hc2] at h
  rcases h3 : parseNumComponent r4 with _ | ⟨pat, r5⟩
  · rw [h3] at h
    simp at h
  rw [h3] at h
  simp only [] at h
  rcases r5 with _ | ⟨c3, r6⟩
  · simp only [] at h
    injection h with hv
    subst hv
    intro ch hch
    simp at hch
  simp only [] at h
  by_cases hc3 : c3 = '-'
  · rw [if_pos hc3] at h
    rcases h4 : identsLoop true r6 [] with _ | ⟨pre, r7⟩
    · rw [h4] at h
      simp at h
    rw [h4] at h
    simp only [] at h
    rcases r7 with _ | ⟨c4, r8⟩
    · simp only [] at h
      injection h with hv
      subst hv
      intro ch hch
      exact identsLoop_chars true r6 [] pre [] h4 (by simp) ch hch
    simp only [] at h
    by_cases hc4 : c4 = '+'
    case neg =>
      rw [if_neg hc4] at h
      simp at h
    rw [if_pos hc4] at h
    rcases h5 : identsLoop false r8 [] with _ | ⟨bld, r9⟩
    · rw [h5] at h
      simp at h
    rw [h5] at h
    simp only [] at h
    by_cases hr9 : r9 = []
    case neg =>
      rw [if_neg hr9] at h
      simp at h
    rw [if_pos hr9] at h
    injection h with hv
    subst hv
    intro ch hch
    exact identsLoop_chars true r6 [] pre (c4 :: r8) h4 (by simp) ch hch
  · rw [if_neg hc3] at h
    by_cases hc3' : c3 = '+'
    case neg =>
      rw [if_neg hc3'] at h
      simp at h
    rw [if_pos hc3'] at h
    rcases h4 : identsLoop false r6 [] with _ | ⟨bld, r7⟩
    · rw [h4] at h
      simp at h
    rw [h4] at h
    simp only [] at h
    by_cases hr7 : r7 = []
    case neg =>
      rw [if_neg hr7] at h
      simp at h
    rw [if_pos hr7] at h
    injection h with hv
    subst hv
    intro ch hch
    simp at hch

theorem versionToString_chars (w : Version)
    (hpre : ∀ ch ∈ w.pre.toList, ch ≠ '\n')
    (hbuild : ∀ ch ∈ w.build.toList, ch ≠ '\n') :
    ∀ ch ∈ (versionToString w).toList, ch ≠ '\n' := by
  intro ch hch
  unfold versionToString at hch
  simp only [strToList_append, List.mem_append] at hch
  have hdig : ∀ n : Nat, ch ∈ (natRepr n).toList → ch ≠ '\n' := by
    intro n hn heq
    subst heq
    have hx := natRepr_digits n _ hn
    simp at hx
  rcases hch with (((((h1 | h2) | h3) | h4) | h5) | h6) | h7
  · exact hdig _ h1
  · have h2' : ch ∈ ['.'] := h2
    simp only [List.mem_singleton] at h2'
    subst h2'
    decide
  · exact hdig _ h3
  · have h4' : ch ∈ ['.'] := h4
    simp only [List.mem_singleton] at h4'
    subst h4'
    decide
  · exact hdig _ h5
  · split at h6
    · exact absurd (show ch ∈ ([] : List Char) from h6) (by simp)
    · rw [strToList_append] at h6
      rcases List.mem_append.1 h6 with hh | hh
      · have hh' : ch ∈ ['-'] := hh
        simp only [List.mem_singleton] at hh'
        subst hh'
        decide
      · exact hpre ch hh
  · split at h7
    · exact absurd (show ch ∈ ([] : List Char) from h7) (by simp)
    · rw [strToList_append] at h7
      rcases List.mem_append.1 h7 with hh | hh
      · have hh' : ch ∈ ['+'] := hh
        simp only [List.mem_singleton] at hh'
        subst hh'
        decide
      · exact hbuild ch hh

/-- The version string written back by the bump never contains a
newline: numeric parts are digits, the prerelease (kept only by a build
bump) came from the semver grammar, and the build is decimal. -/
theorem bump_toString_no_newline (s : String) (v : Version)
    (part : VersionPart) (h : Version.parse s = some v) :
    ∀ ch ∈ (versionToString (bumpVersion v part)).toList, ch ≠ '\n' := by
  have hpre := parse_pre_chars s v h
  have hpre' : ∀ ch ∈ v.pre.toList, ch ≠ '\n' := by
    intro ch hch heq
    rcases hpre ch hch with h1 | h1
    · rw [heq] at h1
      simp [isIdentChar] at h1
    · rw [heq] at h1
      simp at h1
  cases part with
  | major =>
    refine versionToString_chars _ (by simp [bumpVersion]) ?_
    intro ch hch heq
    simp [bumpVersion] at hch
    rw [hch] at heq
    simp at heq
  | minor =>
    refine versionToString_chars _ (by simp [bumpVersion]) ?_
    intro ch hch heq
    simp [bumpVersion] at hch
    rw [hch] at heq
    simp at heq
  | patch =>
    refine versionToString_chars _ (by simp [bumpVersion]) ?_
    intro ch hch heq
    simp [bumpVersion] at hch
    rw [hch] at heq
    simp at heq
  | build =>
    refine versionToString_chars _ ?_ ?_
    · intro ch hch
      exact hpre' ch (by simpa [bumpVersion] using hch)
    · intro ch hch heq
      subst heq
      have hd := natRepr_digits
        (((if v.build = "" then 0 else (parseU64 v.build).getD 0) + 1) % 2 ^ 64)
        '\n' (by simpa [bumpVersion] using hch)
      simp at hd

/-- With a readable manifest, the tag-sync step always returns success
(every failure mode before creation is a skip, and the create guard was
checked just before). -/
theorem ensure_readable_ok (repo : Option RepoSt) (c : String)
    (pfx : TagPfx) :
    ∃ o, ensure_current_version_tag repo (some c) pfx = .ok o := by
  cases repo with
  | none => exact ⟨.skippedNotARepo, rfl⟩
  | some r =>
    rcases hrv : read_pubspec_version c with _ | vs
    · exact ⟨.skippedNoVersion, by simp [ensure_current_version_tag, hrv]⟩
    · rcases hp : Version.parse vs with _ | v
      · exact ⟨.skippedInvalidVersion,
          by simp [ensure_current_version_tag, hrv, hp]⟩
      · by_cases hex : (tag_exists r (tagBase v) ||
            tag_exists r ("v" ++ tagBase v)) = true
        · exact ⟨.alreadyTagged,
            by simp [ensure_current_version_tag, hrv, hp, hex]⟩
        · rcases hh : r.head with _ | hc
          · exact ⟨.skippedUnbornHead,
              by simp [ensure_current_version_tag, hrv, hp, hex, hh]⟩
          · have hpref : tag_exists r
                (preferredTag pfx (tagBase v) ("v" ++ tagBase v)) = false := by
              simp only [Bool.or_eq_true, not_or] at hex
              cases pfx
              · simpa using hex.2
              · simpa using hex.1
            exact ⟨.created (preferredTag pfx (tagBase v) ("v" ++ tagBase v)),
              by simp [ensure_current_version_tag, hrv, hp, hex, hh, hpref]⟩

/-- **C10.** If the manifest content has no match of
`(?m)^version:\s*(.+)$` (no version line), the program does not write the
manifest at all and exits successfully after the tag-sync step: the
replace leaves `new_version_string` empty, `main` prints a notice and
returns `Ok`. -/
theorem no_version_line_no_write (repo : Option RepoSt) (c : String)
    (pfx : TagPfx) (part : VersionPart)
    (h : findVersionMatch c = Option.none) :
    mainBump repo (some c) pfx part = .ok Option.none := by
  obtain ⟨o, ho⟩ := ensure_readable_ok repo c pfx
  unfold mainBump
  rw [ho]
  simp [bumpManifest, h]

/-- Witness for C10: a manifest with no version line. -/
theorem no_version_line_no_write_witness :
    mainBump (some ⟨[], some ("h")⟩) (some ("name: app\n")) .v .patch =
      .ok Option.none :=
  no_version_line_no_write (some ⟨[], some ("h")⟩) ("name: app\n") .v .patch
    (by decide)

/-- Counterexample for C9 as stated: with the manifest
`"version:\n1.2.3\nname: x"` the regex's `\s*` crosses the newline, the
match spans two lines, and the rewrite merges them — the line `"1.2.3"`
(not the line matching `^version:`) disappears from the file. -/
theorem bump_cross_line_counterexample :
    bumpManifest ("version:\n1.2.3\nname: x") .patch =
      .bumped ("version: 1.2.4+1\nname: x") ("1.2.4+1") ∧
    ("1.2.3").toList ∈ splitChars '\n' ("version:\n1.2.3\nname: x").toList ∧
    ("1.2.3").toList ∉ splitChars '\n' ("version: 1.2.4+1\nname: x").toList := by
  refine ⟨by decide, by decide, by decide⟩

/-- **C9 (amended).** When the bump rewrites the manifest and the regex
match does not extend across a newline (the version value sits on the
`version:` line itself), only that one line changes: the file splits into
the same leading lines `L` and trailing lines `rest` before and after the
write, the matched line (which starts with `version:`) is replaced by
`"version: {new version}"`, and every other line is byte-for-byte
unchanged. -/
theorem bump_rewrites_single_line (c : String) (part : VersionPart)
    (s e : Nat) (cap : String) (v : Version)
    (hmatch : findVersionMatch c = some (s, e, cap))
    (hparse : Version.parse (rustTrim cap) = some v)
    (hintra : ∀ ch ∈ (c.toList.take e).drop s, ch ≠ '\n') :
    ∃ L rest,
      bumpManifest c part = .bumped (String.mk
        (c.toList.take s ++ ("version: ").toList ++
          (versionToString (bumpVersion v part)).toList ++ c.toList.drop e))
        (versionToString (bumpVersion v part)) ∧
      splitChars '\n' c.toList = L ++ ((c.toList.take e).drop s) :: rest ∧
      splitChars '\n'
        (c.toList.take s ++ ("version: ").toList ++
          (versionToString (bumpVersion v part)).toList ++ c.toList.drop e) =
        L ++ (("version: " ++ versionToString (bumpVersion v part)).toList)
          :: rest ∧
      hasPre (("version:").toList) ((c.toList.take e).drop s) = true := by
  have hmatch' := hmatch
  unfold findVersionMatch at hmatch
  rw [Option.map_eq_some'] at hmatch
  obtain ⟨⟨p0, e0, capL⟩, hscan, heq⟩ := hmatch
  have h3 : p0 = s ∧ e0 = e ∧ String.mk capL = cap := by
    simpa using heq
  obtain ⟨hp0, he0, hcap0⟩ := h3
  rw [hp0, he0] at hscan
  obtain ⟨skip, rest0, hcs, hs, _, hlastNL, hhasPre, hmac, hle⟩ :=
    scanVersionLine_sound c.toList true 0 s e capL hscan
  have hs' : s = skip.length := by omega
  obtain ⟨tail, hrest0⟩ := (hasPre_iff (("version:").toList) rest0).1 hhasPre
  have ha8 : ((("version:") : String).toList).length = 8 := rfl
  have hdrop8 : rest0.drop 8 = tail := by
    rw [hrest0, ← ha8]
    exact List.drop_left _ _
  rw [hdrop8] at hmac
  obtain ⟨k, hm, hws, hcapEq, hcapNe, hcapNoNL, hsuf⟩ :=
    matchAfterColon_sound tail (e - (s + 8)) capL hmac
  have hcs2 : c.toList = skip ++ ((("version:") : String).toList ++ tail) := by
    rw [hcs, hrest0]
  have hpre_eq : c.toList.take s = skip := by
    rw [hcs, hs']
    exact List.take_left _ _
  have hmid_eq : (c.toList.take e).drop s =
      (("version:") : String).toList ++ tail.take (e - (s + 8)) := by
    rw [hcs2, List.take_append_eq_append_take,
      List.take_of_length_le (by omega : skip.length ≤ e),
      List.drop_append_eq_append_drop,
      List.drop_eq_nil_of_le (by omega : skip.length ≤ s),
      List.nil_append]
    have h1 : s - skip.length = 0 := by omega
    have h2 : e - skip.length = 8 + (e - (s + 8)) := by omega
    rw [h1, h2, List.drop_zero, List.take_append_eq_append_take,
      List.take_of_length_le (by rw [ha8]; omega), ha8]
    congr 1
    congr 1
    omega
  have hsuf_eq : c.toList.drop e = tail.drop (e - (s + 8)) := by
    rw [hcs2, List.drop_append_eq_append_drop,
      List.drop_eq_nil_of_le (by omega : skip.length ≤ e),
      List.nil_append, List.drop_append_eq_append_drop,
      List.drop_eq_nil_of_le (by rw [ha8]; omega), List.nil_append, ha8]
    congr 1
    omega
  have hpreLS : c.toList.take s = [] ∨
      (c.toList.take s).getLast? = some '\n' := by
    rw [hpre_eq]
    rcases hsk : skip.getLast? with _ | l
    · exact Or.inl (List.getLast?_eq_none_iff.1 hsk)
    · have hl := hlastNL l hsk
      subst hl
      exact Or.inr rfl
  have hmid'NoNL : ∀ ch ∈ (("version: " ++
      versionToString (bumpVersion v part)).toList), ch ≠ '\n' := by
    intro ch hch
    rw [strToList_append] at hch
    rcases List.mem_append.1 hch with hh | hh
    · have hh2 : ch ∈ ['v', 'e', 'r', 's', 'i', 'o', 'n', ':', ' '] := hh
      intro hq
      subst hq
      exact absurd hh2 (by decide)
    · exact bump_toString_no_newline (rustTrim cap) v part hparse ch hh
  have hsufLS : c.toList.drop e = [] ∨
      ∃ s', c.toList.drop e = '\n' :: s' := by
    rw [hsuf_eq]
    exact hsuf
  have hsplit_old : c.toList =
      c.toList.take s ++ ((c.toList.take e).drop s) ++ c.toList.drop e := by
    rw [hpre_eq, hmid_eq, hsuf_eq]
    conv_lhs => rw [hcs2]
    rw [List.append_assoc]
    congr 1
    rw [List.append_assoc]
    congr 1
    exact (List.take_append_drop _ _).symm
  obtain ⟨L, rest, hold, hnew⟩ := lines_splice (c.toList.take s)
    ((c.toList.take e).drop s)
    (("version: " ++ versionToString (bumpVersion v part)).toList)
    (c.toList.drop e) hpreLS hintra hmid'NoNL hsufLS
  refine ⟨L, rest, ?_, ?_, ?_, ?_⟩
  · unfold bumpManifest
    rw [hmatch']
    simp only []
    rw [hparse]
  · conv_lhs => rw [hsplit_old]
    exact hold
  · have hassoc : c.toList.take s ++ ("version: ").toList ++
        (versionToString (bumpVersion v part)).toList ++ c.toList.drop e =
        c.toList.take s ++ (("version: " ++
          versionToString (bumpVersion v part)).toList) ++ c.toList.drop e := by
      rw [strToList_append, List.append_assoc, List.append_assoc,
        List.append_assoc]
      rfl
    rw [hassoc]
    exact hnew
  · rw [hmid_eq]
    exact (hasPre_iff _ _).2 ⟨tail.take (e - (s + 8)), rfl⟩

/-- Witness for the amended C9 at a concrete three-line manifest: the
middle line is rewritten, its neighbors survive byte-for-byte. -/
theorem bump_rewrites_single_line_witness :
    bumpManifest ("name: x\nversion: 1.2.3\nend: y") .patch =
      .bumped ("name: x\nversion: 1.2.4+1\nend: y") ("1.2.4+1") := by
  obtain ⟨L, rest, h1, h2, h3, h4⟩ := bump_rewrites_single_line
    ("name: x\nversion: 1.2.3\nend: y") .patch 8 22 ("1.2.3")
    ⟨1, 2, 3, "", ""⟩ (by decide) (by decide) (by decide)
  exact h1.trans (by decide)

end FlutterTools
